import Mathlib

/- Shallow embedding of the keystore subsystem of the agent-wallet repository
   (src/typescript/src/keystore). Buffers are lists of bytes (`Nat`, reduced
   mod 256 at each read, as in a Node.js `Buffer`); JavaScript strings are
   modelled by their UTF-8 byte sequences; 32-bit JavaScript integer
   semantics appear as explicit `% 2 ^ 32`. Loops are translated with a fuel
   parameter large enough that the backstop (`Err.fuelErr`) is unreachable,
   which is proved where needed. -/

/-- UTF-8 byte sequence of a JavaScript string. -/
abbrev Str := List Nat

/-- A JavaScript object with string keys and string values, in property
insertion order (the shape of `KeystoreData = Record<string, string>`). -/
abbrev JsObj := List (Str × Str)

/-- JavaScript property read `m[k]`. -/
def jsGet : JsObj → Str → Option Str
  | [], _ => none
  | p :: t, k => if p.1 = k then some p.2 else jsGet t k

/-- JavaScript property write `m[k] = v`: updates an existing key in place,
otherwise appends a new property. -/
def jsSet : JsObj → Str → Str → JsObj
  | [], k, v => [(k, v)]
  | p :: t, k, v => if p.1 = k then (k, v) :: t else p :: jsSet t k v

/-- Errors raised by the keystore subsystem, plus two model-internal
constructors that are proved unreachable: `fuelErr` (loop fuel exhausted)
and `oobErr` (a buffer read outside the checked bounds). -/
inductive Err where
  | decodeErr (msg : String)
  | formatErr (msg : String)
  | authErr (msg : String)
  | missingPasswordErr (msg : String)
  | fuelErr
  | oobErr
deriving DecidableEq

/-- Bounds-checked read of `buf[pos]`; a Node `Buffer` cell always holds a
byte, hence the `% 256`. -/
def byteAt (buf : List Nat) (pos : Nat) : Option Nat :=
  (buf.get? pos).map (fun b => b % 256)

/-- `buf.subarray(start, start + len).toString('utf8')`: `subarray` clamps to
the buffer bounds, and the resulting string is modelled by its bytes. -/
def bytesAt (buf : List Nat) (start len : Nat) : List Nat :=
  ((buf.drop start).take len).map (fun b => b % 256)

def WIRE_TYPE_VARINT : Nat := 0
def WIRE_TYPE_64BIT : Nat := 1
def WIRE_TYPE_LENGTH_DELIMITED : Nat := 2
def WIRE_TYPE_32BIT : Nat := 5

/-- Loop of `encodeVarint` (keystore_proto.ts lines 27-36):
`(v & 0x7f) | 0x80` is `v % 128 + 128` (the operands have disjoint bits) and
`v >>>= 7` is `v / 128`. The loop runs at most 5 times for a value below
`2 ^ 32`, so the fuel `6` supplied by `encodeVarint` is never exhausted. -/
def encodeVarintLoop : Nat → Nat → List Nat
  | 0, _ => []
  | fuel + 1, v =>
    if v < 128 then [v] else (v % 128 + 128) :: encodeVarintLoop fuel (v / 128)

/-- `encodeVarint` (keystore_proto.ts lines 27-36); `value >>> 0` is
`% 2 ^ 32`. -/
def encodeVarint (value : Nat) : List Nat :=
  encodeVarintLoop 6 (value % 2 ^ 32)

/-- Loop of `decodeVarint` (keystore_proto.ts lines 38-54). The accumulator
`result` always stays below `2 ^ 32`, so the source's final `>>> 0` is the
identity; `(b & 0x7f) << shift` is a 32-bit shift, hence the `% 2 ^ 32`;
`(b & 0x80) === 0` on a byte is `b < 128`. -/
def decodeVarintLoop (fuel : Nat) (buf : List Nat) (pos result shift bytesRead : Nat) :
    Except Err (Nat × Nat) :=
  match fuel with
  | 0 => .error .fuelErr
  | fuel + 1 =>
    if pos < buf.length then
      if 5 ≤ bytesRead then .error (.decodeErr "Varint too long")
      else
        match byteAt buf pos with
        | none => .error .oobErr
        | some b =>
          let result1 := result ||| (((b % 128) <<< shift) % 2 ^ 32)
          if b < 128 then .ok (result1, pos + 1)
          else decodeVarintLoop fuel buf (pos + 1) result1 (shift + 7) (bytesRead + 1)
    else .error (.decodeErr "Unexpected end of buffer while decoding varint")

/-- `decodeVarint` (keystore_proto.ts lines 38-54): at most 5 bytes are ever
read, so fuel 6 suffices. -/
def decodeVarint (buf : List Nat) (offset : Nat) : Except Err (Nat × Nat) :=
  decodeVarintLoop 6 buf offset 0 0 0

/-- `skipField` (keystore_proto.ts lines 59-79). -/
def skipField (buf : List Nat) (offset wireType : Nat) : Except Err Nat :=
  if wireType = WIRE_TYPE_VARINT then
    match decodeVarint buf offset with
    | .error e => .error e
    | .ok (_, nextOffset) => .ok nextOffset
  else if wireType = WIRE_TYPE_64BIT then
    if offset + 8 > buf.length then
      .error (.decodeErr "Unexpected end of buffer skipping 64-bit field")
    else .ok (offset + 8)
  else if wireType = WIRE_TYPE_LENGTH_DELIMITED then
    match decodeVarint buf offset with
    | .error e => .error e
    | .ok (len, nextOffset) =>
      if nextOffset + len > buf.length then
        .error (.decodeErr "Length-delimited field exceeds buffer")
      else .ok (nextOffset + len)
  else if wireType = WIRE_TYPE_32BIT then
    if offset + 4 > buf.length then
      .error (.decodeErr "Unexpected end of buffer skipping 32-bit field")
    else .ok (offset + 4)
  else .error (.decodeErr "Unknown wire type")

/-- `encodeStringField` (keystore_proto.ts lines 81-86); the string argument
is already its UTF-8 byte sequence, so `Buffer.from(value, 'utf8')` is the
identity and `bytes.length` is `value.length`. -/
def encodeStringField (fieldNumber : Nat) (value : Str) : List Nat :=
  encodeVarint ((fieldNumber <<< 3) ||| WIRE_TYPE_LENGTH_DELIMITED) ++
    encodeVarint value.length ++ value

/-- `encodeKeystoreData` (keystore_proto.ts lines 88-103): one outer field
(number 1, length-delimited) per entry, in object iteration order. -/
def encodeKeystoreData (data : JsObj) : List Nat :=
  (data.map (fun kv =>
    let entryBuf := encodeStringField 1 kv.1 ++ encodeStringField 2 kv.2
    encodeVarint ((1 <<< 3) ||| WIRE_TYPE_LENGTH_DELIMITED) ++
      encodeVarint entryBuf.length ++ entryBuf)).flatten

/-- Inner loop of `decodeKeystoreData` (keystore_proto.ts lines 132-153):
parses the sub-fields of one entry sub-message ending at `endp`, tracking
the last `key` and `value` sub-fields seen. -/
def decodeEntryLoop (fuel : Nat) (buf : List Nat) (offset endp : Nat)
    (key value : Option Str) : Except Err (Option Str × Option Str × Nat) :=
  match fuel with
  | 0 => .error .fuelErr
  | fuel + 1 =>
    if offset < endp then
      match decodeVarint buf offset with
      | .error e => .error e
      | .ok (innerTag, innerTagEnd) =>
        let innerField := innerTag / 8
        let innerWire := innerTag % 8
        if innerWire ≠ WIRE_TYPE_LENGTH_DELIMITED then
          match skipField buf innerTagEnd innerWire with
          | .error e => .error e
          | .ok offset1 => decodeEntryLoop fuel buf offset1 endp key value
        else
          match decodeVarint buf innerTagEnd with
          | .error e => .error e
          | .ok (strLen, strStart) =>
            if strStart + strLen > endp then
              .error (.decodeErr "String length exceeds sub-message boundary")
            else
              let str := bytesAt buf strStart strLen
              let offset1 := strStart + strLen
              if innerField = 1 then decodeEntryLoop fuel buf offset1 endp (some str) value
              else if innerField = 2 then decodeEntryLoop fuel buf offset1 endp key (some str)
              else decodeEntryLoop fuel buf offset1 endp key value
    else .ok (key, value, offset)

/-- Outer loop of `decodeKeystoreData` (keystore_proto.ts lines 109-158);
`tag >>> 3` is `tag / 8` and `tag & 0x07` is `tag % 8`. -/
def decodeLoop (fuel : Nat) (buf : List Nat) (offset : Nat) (result : JsObj) :
    Except Err JsObj :=
  match fuel with
  | 0 => .error .fuelErr
  | fuel + 1 =>
    if offset < buf.length then
      match decodeVarint buf offset with
      | .error e => .error e
      | .ok (tag, tagEnd) =>
        let fieldNumber := tag / 8
        let wireType := tag % 8
        if fieldNumber ≠ 1 ∨ wireType ≠ WIRE_TYPE_LENGTH_DELIMITED then
          match skipField buf tagEnd wireType with
          | .error e => .error e
          | .ok offset1 => decodeLoop fuel buf offset1 result
        else
          match decodeVarint buf tagEnd with
          | .error e => .error e
          | .ok (msgLen, msgStart) =>
            if msgStart + msgLen > buf.length then
              .error (.decodeErr "Sub-message length exceeds buffer")
            else
              match decodeEntryLoop (buf.length + 1) buf msgStart (msgStart + msgLen)
                  none none with
              | .error e => .error e
              | .ok (key, value, offset1) =>
                match key, value with
                | some k, some v => decodeLoop fuel buf offset1 (jsSet result k v)
                | _, _ => decodeLoop fuel buf offset1 result
    else .ok result

/-- `decodeKeystoreData` (keystore_proto.ts lines 105-161): the outer loop
advances by at least one byte per iteration, so fuel `buf.length + 1` is
never exhausted. -/
def decodeKeystoreData (buf : List Nat) : Except Err JsObj :=
  decodeLoop (buf.length + 1) buf 0 []

/-- The stream of decoded entries in buffer order. This is the same loop as
`decodeLoop` except that it records each completed (key, value) entry
instead of folding it into an object; it is used only to state the
last-occurrence-wins property of `decodeKeystoreData`. -/
def decodeEntriesLoop (fuel : Nat) (buf : List Nat) (offset : Nat) :
    Except Err (List (Str × Str)) :=
  match fuel with
  | 0 => .error .fuelErr
  | fuel + 1 =>
    if offset < buf.length then
      match decodeVarint buf offset with
      | .error e => .error e
      | .ok (tag, tagEnd) =>
        let fieldNumber := tag / 8
        let wireType := tag % 8
        if fieldNumber ≠ 1 ∨ wireType ≠ WIRE_TYPE_LENGTH_DELIMITED then
          match skipField buf tagEnd wireType with
          | .error e => .error e
          | .ok offset1 => decodeEntriesLoop fuel buf offset1
        else
          match decodeVarint buf tagEnd with
          | .error e => .error e
          | .ok (msgLen, msgStart) =>
            if msgStart + msgLen > buf.length then
              .error (.decodeErr "Sub-message length exceeds buffer")
            else
              match decodeEntryLoop (buf.length + 1) buf msgStart (msgStart + msgLen)
                  none none with
              | .error e => .error e
              | .ok (key, value, offset1) =>
                match key, value with
                | some k, some v =>
                  (decodeEntriesLoop fuel buf offset1).map (fun es => (k, v) :: es)
                | _, _ => decodeEntriesLoop fuel buf offset1
    else .ok []

/-- Entry stream of a whole buffer (same fuel as `decodeKeystoreData`). -/
def decodeEntries (buf : List Nat) : Except Err (List (Str × Str)) :=
  decodeEntriesLoop (buf.length + 1) buf 0

/-- Value of the last occurrence of key `k` in an entry stream, if any. -/
def lastVal : List (Str × Str) → Str → Option Str
  | [], _ => none
  | e :: es, k =>
    match lastVal es k with
    | some v => some v
    | none => if e.1 = k then some e.2 else none

/-- JSON value as produced by `JSON.parse`. -/
inductive Json where
  | null
  | bool (b : Bool)
  | num (n : Int)
  | str (s : Str)
  | arr (xs : List Json)
  | obj (fields : List (Str × Json))

/-- JavaScript property read on a parsed JSON object. -/
def jLookup : List (Str × Json) → Str → Option Json
  | [], _ => none
  | p :: t, k => if p.1 = k then some p.2 else jLookup t k

/-- The byte sequence of the string "version". -/
def verKey : Str := [118, 101, 114, 115, 105, 111, 110]
/-- The byte sequence of the string "salt". -/
def saltKey : Str := [115, 97, 108, 116]
/-- The byte sequence of the string "iv". -/
def ivKey : Str := [105, 118]
/-- The byte sequence of the string "tag". -/
def tagKey : Str := [116, 97, 103]
/-- The byte sequence of the string "data". -/
def dataKey : Str := [100, 97, 116, 97]

/-- Whether `version` of a parsed JSON object is the number 1 (the strict
equality `o.version === 1`). -/
def isVersionOne (fields : List (Str × Json)) : Bool :=
  match jLookup fields verKey with
  | some (.num n) => n == 1
  | _ => false

/-- Whether property `k` of a parsed JSON object is a string. -/
def isStringProp (fields : List (Str × Json)) (k : Str) : Bool :=
  match jLookup fields k with
  | some (.str _) => true
  | _ => false

/-- `isEncryptedPayload` (keystore_crypto.ts lines 149-160): a truthy object
whose `version` property is the number 1 and whose `salt`, `iv`, `tag` and
`data` properties are strings. `null` fails the truthiness test, a parsed
JSON array has none of these properties, and other primitives fail the
`typeof` test, so only objects can satisfy the predicate. -/
def isEncryptedPayload : Json → Bool
  | .obj fields =>
    isVersionOne fields &&
      isStringProp fields saltKey && isStringProp fields ivKey &&
      isStringProp fields tagKey && isStringProp fields dataKey
  | _ => false

/-- `EncryptedPayload` (keystore_crypto.ts): transport form with hex-encoded
salt/iv/tag and base64-encoded ciphertext, all modelled as byte strings. -/
structure EncryptedPayload where
  version : Int
  salt : Str
  iv : Str
  tag : Str
  data : Str
deriving DecidableEq

/-- String property of a parsed JSON object (used by the
`parsed as EncryptedPayload` cast after `isEncryptedPayload` succeeded). -/
def strProp (fields : List (Str × Json)) (k : Str) : Str :=
  match jLookup fields k with
  | some (.str s) => s
  | _ => []

/-- The cast `parsed as EncryptedPayload` on a parsed JSON object. -/
def payloadOfJson : Json → EncryptedPayload
  | .obj fields =>
    { version := 1, salt := strProp fields saltKey, iv := strProp fields ivKey,
      tag := strProp fields tagKey, data := strProp fields dataKey }
  | _ => { version := 1, salt := [], iv := [], tag := [], data := [] }

/-- Value of an ASCII hex digit, if any. -/
def hexDigit (c : Nat) : Option Nat :=
  if 48 ≤ c ∧ c ≤ 57 then some (c - 48)
  else if 97 ≤ c ∧ c ≤ 102 then some (c - 97 + 10)
  else if 65 ≤ c ∧ c ≤ 70 then some (c - 65 + 10)
  else none

/-- `Buffer.from(str, 'hex')`: decode complete hex byte pairs from the left,
stopping at the first invalid character or lone trailing digit. -/
def hexDecode : Str → List Nat
  | c1 :: c2 :: rest =>
    match hexDigit c1, hexDigit c2 with
    | some hi, some lo => (hi * 16 + lo) :: hexDecode rest
    | _, _ => []
  | _ => []

def SALT_LEN : Nat := 16
def IV_LEN : Nat := 12
def TAG_LEN : Nat := 16

/-- External platform primitives used by the keystore, opaque parameters of
the model: JSON parsing (`none` when `JSON.parse` throws), base64 decoding,
scrypt key derivation, and the AES-256-GCM open operation (`none` exactly
when tag authentication fails). -/
structure Oracles where
  jsonParse : List Nat → Option Json
  b64decode : Str → List Nat
  deriveKey : Str → List Nat → List Nat
  gcmOpen : List Nat → List Nat → List Nat → List Nat → Option Str

/-- `decrypt` (keystore_crypto.ts lines 133-144): hex-decode the salt, iv
and tag, validate their lengths (a FormatError on mismatch), then derive
the key with scrypt and perform the authenticated AES-256-GCM decryption
(an AuthenticationError when the tag does not verify). -/
def decrypt (orc : Oracles) (payload : EncryptedPayload) (password : Str) :
    Except Err Str :=
  let salt := hexDecode payload.salt
  let iv := hexDecode payload.iv
  let tag := hexDecode payload.tag
  if salt.length ≠ SALT_LEN then .error (.formatErr "Invalid salt length")
  else if iv.length ≠ IV_LEN then .error (.formatErr "Invalid iv length")
  else if tag.length ≠ TAG_LEN then .error (.formatErr "Invalid tag length")
  else
    let key := orc.deriveKey password salt
    match orc.gcmOpen key iv tag (orc.b64decode payload.data) with
    | some plain => .ok plain
    | none => .error (.authErr "Unsupported state or unable to authenticate data")

/-- Object heap: JavaScript objects are references; the heap maps each live
reference (its index) to the object's current contents. -/
abbrev Heap := List JsObj

/-- Contents of the object behind reference `r`. -/
def heapGet (h : Heap) (r : Nat) : JsObj := h.getD r []

/-- Mutate the object behind reference `r`. -/
def heapSet (h : Heap) (r : Nat) (o : JsObj) : Heap := h.set r o

/-- Create a fresh object with contents `o`, returning the new heap and the
fresh reference. -/
def alloc (h : Heap) (o : JsObj) : Heap × Nat := (h ++ [o], h.length)

/-- On-disk state of the keystore file: `none` when the file does not exist,
otherwise its raw bytes. -/
abbrev FileState := Option (List Nat)

/-- State of a `Keystore` instance (keystore.ts lines 41-51): the reference
to its in-memory `data` object, the `loaded` flag and the configured
password. -/
structure Keystore where
  dataRef : Nat
  loaded : Bool
  password : Option Str
deriving DecidableEq

/-- Result of one keystore operation: the returned value or the raised
error, together with the instance state, object heap and file state after
the operation. -/
structure Outcome (α : Type) where
  res : Except Err α
  store : Keystore
  heap : Heap
  fs : FileState

/-- The cast `parsed as KeystoreData` on a parsed JSON object: its fields,
which the declared type `Record<string, string>` makes string-valued; the
model covers the well-typed (string-valued) properties. -/
def jsonFieldsToData (fields : List (Str × Json)) : JsObj :=
  fields.filterMap (fun p =>
    match p.2 with
    | .str s => some (p.1, s)
    | _ => none)

/-- Common tail of the successful branches of `Keystore.read` with an
existing file (keystore.ts lines 89, 95, 99, 102 and 104-106): `this.data`
is assigned a freshly created object holding `m`, then `this.loaded = true`,
and a spread copy `{ ...this.data }` is returned. -/
def Keystore.finishRead (ks : Keystore) (h : Heap) (fs : FileState) (m : JsObj) :
    Outcome Nat :=
  let a1 := alloc h m
  let a2 := alloc a1.1 m
  ⟨.ok a2.2, { ks with dataRef := a1.2, loaded := true }, a2.1, fs⟩

/-- `Keystore.read` (keystore.ts lines 58-107). When the file is missing,
`this.data` is set to a fresh empty object and returned directly (not a
copy). Otherwise the raw bytes go through the format-detection cascade:
JSON that satisfies `isEncryptedPayload` is decrypted (MissingPasswordError
without a password), and its plaintext is either a JSON object (legacy) or
base64-encoded protobuf; other JSON objects are the legacy plaintext
format; anything else is decoded as protobuf binary. Errors are raised
before `this.data`, `this.loaded` or the heap are touched. -/
def Keystore.read (orc : Oracles) (ks : Keystore) (h : Heap) (fs : FileState) :
    Outcome Nat :=
  match fs with
  | none =>
    ⟨.ok ks.dataRef, { ks with loaded := true }, heapSet h ks.dataRef [], fs⟩
  | some rawBuf =>
    match orc.jsonParse rawBuf with
    | some parsed =>
      if isEncryptedPayload parsed then
        match ks.password with
        | none =>
          ⟨.error (.missingPasswordErr "Keystore is encrypted but no password provided"),
            ks, h, fs⟩
        | some pw =>
          match decrypt orc (payloadOfJson parsed) pw with
          | .error e => ⟨.error e, ks, h, fs⟩
          | .ok plain =>
            match orc.jsonParse plain with
            | some (.obj fields) => Keystore.finishRead ks h fs (jsonFieldsToData fields)
            | _ =>
              match decodeKeystoreData (orc.b64decode plain) with
              | .error e => ⟨.error e, ks, h, fs⟩
              | .ok m => Keystore.finishRead ks h fs m
      else
        match parsed with
        | .obj fields => Keystore.finishRead ks h fs (jsonFieldsToData fields)
        | _ =>
          match decodeKeystoreData rawBuf with
          | .error e => ⟨.error e, ks, h, fs⟩
          | .ok m => Keystore.finishRead ks h fs m
    | none =>
      match decodeKeystoreData rawBuf with
      | .error e => ⟨.error e, ks, h, fs⟩
      | .ok m => Keystore.finishRead ks h fs m

/-- `Keystore.ensureLoaded` (keystore.ts lines 109-113). -/
def Keystore.ensureLoaded (orc : Oracles) (ks : Keystore) (h : Heap) (fs : FileState) :
    Outcome Unit :=
  if ks.loaded then ⟨.ok (), ks, h, fs⟩
  else
    let o := Keystore.read orc ks h fs
    ⟨o.res.map (fun _ => ()), o.store, o.heap, o.fs⟩

/-- `Keystore.get` (keystore.ts lines 115-118). -/
def Keystore.get (orc : Oracles) (ks : Keystore) (h : Heap) (fs : FileState)
    (key : Str) : Outcome (Option Str) :=
  let o := Keystore.ensureLoaded orc ks h fs
  match o.res with
  | .error e => ⟨.error e, o.store, o.heap, o.fs⟩
  | .ok _ => ⟨.ok (jsGet (heapGet o.heap o.store.dataRef) key), o.store, o.heap, o.fs⟩

/-- `Keystore.set` (keystore.ts lines 120-123): mutates the in-memory data
object in place; nothing is written to disk. -/
def Keystore.set (orc : Oracles) (ks : Keystore) (h : Heap) (fs : FileState)
    (key value : Str) : Outcome Unit :=
  let o := Keystore.ensureLoaded orc ks h fs
  match o.res with
  | .error e => ⟨.error e, o.store, o.heap, o.fs⟩
  | .ok _ =>
    ⟨.ok (), o.store,
      heapSet o.heap o.store.dataRef (jsSet (heapGet o.heap o.store.dataRef) key value),
      o.fs⟩

/-- `Keystore.getAll` (keystore.ts lines 130-133): returns a spread copy
`{ ...this.data }` as a fresh object. -/
def Keystore.getAll (orc : Oracles) (ks : Keystore) (h : Heap) (fs : FileState) :
    Outcome Nat :=
  let o := Keystore.ensureLoaded orc ks h fs
  match o.res with
  | .error e => ⟨.error e, o.store, o.heap, o.fs⟩
  | .ok _ =>
    let a := alloc o.heap (heapGet o.heap o.store.dataRef)
    ⟨.ok a.2, o.store, a.1, o.fs⟩

/- ===== Basic lemmas ===== -/

theorem jsGet_jsSet (m : JsObj) (k v k2 : Str) :
    jsGet (jsSet m k v) k2 = if k2 = k then some v else jsGet m k2 := by
  induction m with
  | nil =>
    simp only [jsSet, jsGet]
    by_cases h : k2 = k
    · subst h; simp
    · rw [if_neg (fun h2 : k = k2 => h h2.symm), if_neg h]
  | cons p t ih =>
    simp only [jsSet]
    by_cases hp : p.1 = k
    · rw [if_pos hp]
      simp only [jsGet]
      by_cases h : k2 = k
      · subst h; simp
      · rw [if_neg (fun h2 : k = k2 => h h2.symm), if_neg h,
          if_neg (show ¬p.1 = k2 by rw [hp]; exact fun h2 => h h2.symm)]
    · rw [if_neg hp]
      simp only [jsGet]
      by_cases hq : p.1 = k2
      · have h : ¬k2 = k := fun he => hp (hq.trans he)
        rw [if_pos hq, if_neg h, if_pos hq]
      · rw [if_neg hq, if_neg hq, ih]

theorem lor_mul_two_pow_eq_add (a b s : Nat) (h : a < 2 ^ s) :
    a ||| b * 2 ^ s = a + b * 2 ^ s := by
  apply Nat.eq_of_testBit_eq
  intro j
  rw [Nat.testBit_lor, Nat.mul_comm b, Nat.add_comm a, Nat.testBit_mul_pow_two_add b h j,
    Nat.testBit_mul_pow_two]
  by_cases hj : j < s
  · simp [hj, Nat.not_le.mpr hj]
  · have hjs : s ≤ j := Nat.not_lt.mp hj
    have ha : a < 2 ^ j := lt_of_lt_of_le h (Nat.pow_le_pow_right (by norm_num) hjs)
    simp [hj, hjs, Nat.testBit_lt_two_pow ha]

theorem byteAt_of_lt (buf : List Nat) (pos : Nat) (h : pos < buf.length) :
    ∃ b, byteAt buf pos = some b ∧ b < 256 := by
  have h1 : buf.get? pos = some buf[pos] := by
    rw [List.get?_eq_getElem?, List.getElem?_eq_getElem h]
  refine ⟨buf[pos] % 256, ?_, Nat.mod_lt _ (by norm_num)⟩
  unfold byteAt
  rw [h1]
  rfl

theorem byteAt_none (buf : List Nat) (pos : Nat) (h : buf.length ≤ pos) :
    byteAt buf pos = none := by
  unfold byteAt
  rw [List.get?_eq_none.mpr h]
  rfl

theorem byteAt_append (pre l : List Nat) (i : Nat) :
    byteAt (pre ++ l) (pre.length + i) = byteAt l i := by
  unfold byteAt
  rw [List.get?_eq_getElem?, List.get?_eq_getElem?,
    List.getElem?_append_right (Nat.le_add_right _ _), Nat.add_sub_cancel_left]

theorem encodeVarintLoop_structure :
    ∀ (fuel v : Nat), 1 ≤ fuel → v < 128 ^ fuel →
      ∃ cs last, encodeVarintLoop fuel v = cs ++ [last] ∧
        (∀ b ∈ cs, 128 ≤ b ∧ b < 256) ∧ last < 128 := by
  intro fuel
  induction fuel with
  | zero => omega
  | succ f ih =>
    intro v _ hv
    by_cases h : v < 128
    · exact ⟨[], v, by simp [encodeVarintLoop, h], by simp, h⟩
    · have hf : 1 ≤ f := by
        by_contra hf
        have : f = 0 := by omega
        subst this
        simp [pow_succ, pow_zero] at hv
        omega
      have hdiv : v / 128 < 128 ^ f := by
        rw [Nat.div_lt_iff_lt_mul (by norm_num)]
        calc v < 128 ^ (f + 1) := hv
        _ = 128 ^ f * 128 := by rw [pow_succ]
      rcases ih (v / 128) hf hdiv with ⟨cs, last, heq, hcs, hlast⟩
      refine ⟨(v % 128 + 128) :: cs, last, ?_, ?_, hlast⟩
      · simp [encodeVarintLoop, h, heq]
      · intro b hb
        rcases List.mem_cons.mp hb with hb | hb
        · subst hb; constructor <;> omega
        · exact hcs b hb

/- ===== Varint step lemmas ===== -/

theorem decodeVarintLoop_step (df : Nat) (buf : List Nat) (pos r s br b : Nat)
    (hpos : pos < buf.length) (hbr : br < 5) (hb : byteAt buf pos = some b) :
    decodeVarintLoop (df + 1) buf pos r s br =
      if b < 128 then .ok (r ||| (((b % 128) <<< s) % 2 ^ 32), pos + 1)
      else decodeVarintLoop df buf (pos + 1) (r ||| (((b % 128) <<< s) % 2 ^ 32))
        (s + 7) (br + 1) := by
  simp [decodeVarintLoop, hpos, Nat.not_le.mpr hbr, hb]

theorem decodeVarintLoop_end (df : Nat) (buf : List Nat) (pos r s br : Nat)
    (h : buf.length ≤ pos) :
    decodeVarintLoop (df + 1) buf pos r s br =
      .error (.decodeErr "Unexpected end of buffer while decoding varint") := by
  simp [decodeVarintLoop, Nat.not_lt.mpr h]

theorem decodeVarintLoop_toolong (df : Nat) (buf : List Nat) (pos r s br : Nat)
    (hpos : pos < buf.length) (h : 5 ≤ br) :
    decodeVarintLoop (df + 1) buf pos r s br = .error (.decodeErr "Varint too long") := by
  simp [decodeVarintLoop, hpos, h]

theorem byteAt_append_cons (pre : List Nat) (b : Nat) (l : List Nat) :
    byteAt (pre ++ b :: l) pre.length = some (b % 256) := by
  unfold byteAt
  rw [List.get?_eq_getElem?, List.getElem?_append_right (le_refl _), Nat.sub_self]
  simp

theorem decodeVarintLoop_encode :
    ∀ (efuel n : Nat) (pre rest : List Nat) (dfuel result br : Nat),
      1 ≤ efuel → n < 128 ^ efuel →
      n < 2 ^ (32 - 7 * br) → result < 2 ^ (7 * br) → br ≤ 4 → 6 ≤ dfuel + br →
      decodeVarintLoop dfuel (pre ++ encodeVarintLoop efuel n ++ rest) pre.length result
          (7 * br) br
        = .ok (result + n * 2 ^ (7 * br), pre.length + (encodeVarintLoop efuel n).length) := by
  intro efuel
  induction efuel with
  | zero => omega
  | succ ef ih =>
    intro n pre rest dfuel result br hef henc hn hres hbr hfuel
    obtain ⟨df, rfl⟩ : ∃ df, dfuel = df + 1 := ⟨dfuel - 1, by omega⟩
    have hpow : (0 : Nat) < 2 ^ (7 * br) := pow_pos (by norm_num) _
    by_cases h : n < 128
    · rw [show encodeVarintLoop (ef + 1) n = [n] from by simp [encodeVarintLoop, h]]
      have hb1 : pre ++ [n] ++ rest = pre ++ n :: rest := by simp
      rw [hb1]
      have hlen : pre.length < (pre ++ n :: rest).length := by
        simp
      have hbyte : byteAt (pre ++ n :: rest) pre.length = some n := by
        rw [byteAt_append_cons, Nat.mod_eq_of_lt (show n < 256 by omega)]
      have hb32 : n * 2 ^ (7 * br) < 2 ^ 32 := by
        calc n * 2 ^ (7 * br) < 2 ^ (32 - 7 * br) * 2 ^ (7 * br) :=
              mul_lt_mul_of_pos_right hn hpow
        _ = 2 ^ 32 := by rw [← pow_add]; congr 1; omega
      rw [decodeVarintLoop_step df _ _ _ _ _ n hlen (by omega) hbyte, if_pos h,
        Nat.mod_eq_of_lt h, Nat.shiftLeft_eq, Nat.mod_eq_of_lt hb32,
        lor_mul_two_pow_eq_add _ _ _ hres]
      simp
    · have hge : 128 ≤ n := Nat.not_lt.mp h
      rw [show encodeVarintLoop (ef + 1) n
            = (n % 128 + 128) :: encodeVarintLoop ef (n / 128) from by
          simp [encodeVarintLoop, h]]
      have hbr3 : br ≤ 3 := by
        rcases Nat.lt_or_ge br 4 with h4 | h4
        · omega
        · have hbr4 : br = 4 := by omega
          subst hbr4
          rw [show 32 - 7 * 4 = 4 by norm_num] at hn
          norm_num at hn
          omega
      have hb1 : pre ++ ((n % 128 + 128) :: encodeVarintLoop ef (n / 128)) ++ rest
          = pre ++ (n % 128 + 128) :: (encodeVarintLoop ef (n / 128) ++ rest) := by
        simp
      rw [hb1]
      have hlt256 : n % 128 + 128 < 256 := by
        have := Nat.mod_lt n (show 0 < 128 by norm_num)
        omega
      have hlen : pre.length
          < (pre ++ (n % 128 + 128) :: (encodeVarintLoop ef (n / 128) ++ rest)).length := by
        simp
      have hbyte : byteAt (pre ++ (n % 128 + 128) :: (encodeVarintLoop ef (n / 128) ++ rest))
          pre.length = some (n % 128 + 128) := by
        rw [byteAt_append_cons, Nat.mod_eq_of_lt hlt256]
      have hmod32 : ((((n % 128 + 128) % 128)) <<< (7 * br)) % 2 ^ 32
          = (n % 128) * 2 ^ (7 * br) := by
        rw [show (n % 128 + 128) % 128 = n % 128 by omega, Nat.shiftLeft_eq]
        apply Nat.mod_eq_of_lt
        calc (n % 128) * 2 ^ (7 * br) < 128 * 2 ^ (7 * br) :=
              mul_lt_mul_of_pos_right (Nat.mod_lt n (by norm_num)) hpow
        _ = 2 ^ (7 + 7 * br) := by rw [pow_add]; norm_num
        _ ≤ 2 ^ 32 := Nat.pow_le_pow_right (by norm_num) (by omega)
      have hpowsucc : 2 ^ (7 * (br + 1)) = 2 ^ (7 * br) * 128 := by
        rw [show 7 * (br + 1) = 7 * br + 7 by ring, pow_add]
        norm_num
      have hres1 : result + (n % 128) * 2 ^ (7 * br) < 2 ^ (7 * (br + 1)) := by
        have h1 : (n % 128) * 2 ^ (7 * br) ≤ 127 * 2 ^ (7 * br) :=
          Nat.mul_le_mul_right _ (by have := Nat.mod_lt n (show 0 < 128 by norm_num); omega)
        rw [hpowsucc]
        nlinarith [hres, h1, hpow]
      rw [decodeVarintLoop_step df _ _ _ _ _ (n % 128 + 128) hlen (by omega) hbyte,
        if_neg (by omega : ¬ n % 128 + 128 < 128), hmod32,
        lor_mul_two_pow_eq_add _ _ _ hres]
      have hef1 : 1 ≤ ef := by
        rcases Nat.lt_or_ge ef 1 with h1 | h1
        · exfalso
          have : ef = 0 := by omega
          subst this
          rw [pow_one] at henc
          omega
        · exact h1
      have hdivenc : n / 128 < 128 ^ ef := by
        rw [Nat.div_lt_iff_lt_mul (by norm_num)]
        calc n < 128 ^ (ef + 1) := henc
        _ = 128 ^ ef * 128 := by rw [pow_succ]
      have hdivn : n / 128 < 2 ^ (32 - 7 * (br + 1)) := by
        rw [Nat.div_lt_iff_lt_mul (by norm_num)]
        calc n < 2 ^ (32 - 7 * br) := hn
        _ = 2 ^ (32 - 7 * (br + 1)) * 128 := by
          rw [show (128 : Nat) = 2 ^ 7 by norm_num, ← pow_add]
          congr 1
          omega
      have step := ih (n / 128) (pre ++ [n % 128 + 128]) rest df
        (result + (n % 128) * 2 ^ (7 * br)) (br + 1) hef1 hdivenc hdivn hres1
        (by omega) (by omega)
      have hbuf : pre ++ [n % 128 + 128] ++ encodeVarintLoop ef (n / 128) ++ rest
          = pre ++ (n % 128 + 128) :: (encodeVarintLoop ef (n / 128) ++ rest) := by
        simp
      rw [hbuf, show (pre ++ [n % 128 + 128]).length = pre.length + 1 by simp] at step
      rw [show 7 * br + 7 = 7 * (br + 1) by ring, step]
      have hval : result + (n % 128) * 2 ^ (7 * br) + n / 128 * 2 ^ (7 * (br + 1))
          = result + n * 2 ^ (7 * br) := by
        rw [hpowsucc]
        calc result + (n % 128) * 2 ^ (7 * br) + n / 128 * (2 ^ (7 * br) * 128)
            = result + (n % 128 + 128 * (n / 128)) * 2 ^ (7 * br) := by ring
        _ = result + n * 2 ^ (7 * br) := by rw [Nat.mod_add_div]
      have hlen2 : pre.length + 1 + (encodeVarintLoop ef (n / 128)).length
          = pre.length + ((n % 128 + 128) :: encodeVarintLoop ef (n / 128)).length := by
        simp
        omega
      rw [hval, hlen2]

/-- Decoding an encoded varint placed after arbitrary prefix bytes yields the
value back and advances exactly past its encoding. -/
theorem decodeVarint_encode (n : Nat) (pre rest : List Nat) (h : n < 2 ^ 32) :
    decodeVarint (pre ++ encodeVarint n ++ rest) pre.length
      = .ok (n, pre.length + (encodeVarint n).length) := by
  unfold decodeVarint encodeVarint
  rw [Nat.mod_eq_of_lt h]
  have henc : n < 128 ^ 6 := by
    calc n < 2 ^ 32 := h
    _ ≤ 128 ^ 6 := by norm_num
  have := decodeVarintLoop_encode 6 n pre rest 6 0 0 (by norm_num) henc
    (by simpa using h) (by norm_num) (by norm_num) (by norm_num)
  simpa using this

/-- If every in-bounds byte among the next five has its continuation bit set
(in particular if the buffer ends first), varint decoding raises a
DecodeError: either the five-byte limit or the end of the buffer is hit. -/
theorem decodeVarintLoop_allCont :
    ∀ (fuel : Nat) (buf : List Nat) (pos r s br : Nat), br ≤ 5 → 6 ≤ fuel + br →
      (∀ i b, i < 5 - br → byteAt buf (pos + i) = some b → 128 ≤ b) →
      ∃ msg, decodeVarintLoop fuel buf pos r s br = .error (.decodeErr msg) := by
  intro fuel
  induction fuel with
  | zero => omega
  | succ f ih =>
    intro buf pos r s br hbr hfuel hcont
    rcases Nat.lt_or_ge pos buf.length with hpos | hpos
    · rcases Nat.lt_or_ge br 5 with hbr5 | hbr5
      · rcases byteAt_of_lt buf pos hpos with ⟨b, hb, _⟩
        have hbig : 128 ≤ b := by
          have := hcont 0 b (by omega) (by rw [Nat.add_zero]; exact hb)
          exact this
        rw [decodeVarintLoop_step f _ _ _ _ _ b hpos hbr5 hb, if_neg (by omega)]
        apply ih buf (pos + 1) _ _ (br + 1) (by omega) (by omega)
        intro i bb hi hbb
        have := hcont (i + 1) bb (by omega) (by rw [show pos + (i + 1) = pos + 1 + i by omega]; exact hbb)
        exact this
      · exact ⟨_, decodeVarintLoop_toolong f buf pos r s br hpos (by omega)⟩
    · exact ⟨_, decodeVarintLoop_end f buf pos r s br hpos⟩

/-- `decodeVarint` is total and raises only DecodeErrors. -/
theorem decodeVarintLoop_total :
    ∀ (fuel : Nat) (buf : List Nat) (pos r s br : Nat), br ≤ 5 → 6 ≤ fuel + br →
      (∃ p, decodeVarintLoop fuel buf pos r s br = .ok p) ∨
        (∃ msg, decodeVarintLoop fuel buf pos r s br = .error (.decodeErr msg)) := by
  intro fuel
  induction fuel with
  | zero => omega
  | succ f ih =>
    intro buf pos r s br hbr hfuel
    rcases Nat.lt_or_ge pos buf.length with hpos | hpos
    · rcases Nat.lt_or_ge br 5 with hbr5 | hbr5
      · rcases byteAt_of_lt buf pos hpos with ⟨b, hb, _⟩
        rw [decodeVarintLoop_step f _ _ _ _ _ b hpos hbr5 hb]
        by_cases hlt : b < 128
        · rw [if_pos hlt]
          exact .inl ⟨_, rfl⟩
        · rw [if_neg hlt]
          exact ih buf (pos + 1) _ _ (br + 1) (by omega) (by omega)
      · exact .inr ⟨_, decodeVarintLoop_toolong f buf pos r s br hpos (by omega)⟩
    · exact .inr ⟨_, decodeVarintLoop_end f buf pos r s br hpos⟩

/-- A successful varint decode advances the offset and stays in bounds. -/
theorem decodeVarintLoop_progress :
    ∀ (fuel : Nat) (buf : List Nat) (pos r s br v no : Nat),
      decodeVarintLoop fuel buf pos r s br = .ok (v, no) →
      pos < no ∧ no ≤ buf.length := by
  intro fuel
  induction fuel with
  | zero => intro buf pos r s br v no hok; simp [decodeVarintLoop] at hok
  | succ f ih =>
    intro buf pos r s br v no hok
    rcases Nat.lt_or_ge pos buf.length with hpos | hpos
    · rcases Nat.lt_or_ge br 5 with hbr5 | hbr5
      · rcases byteAt_of_lt buf pos hpos with ⟨b, hb, _⟩
        rw [decodeVarintLoop_step f _ _ _ _ _ b hpos hbr5 hb] at hok
        by_cases hlt : b < 128
        · rw [if_pos hlt] at hok
          rcases hok with hok
          simp at hok
          omega
        · rw [if_neg hlt] at hok
          have := ih buf (pos + 1) _ _ (br + 1) v no hok
          omega
      · rw [decodeVarintLoop_toolong f buf pos r s br hpos (by omega)] at hok
        simp at hok
    · rw [decodeVarintLoop_end f buf pos r s br hpos] at hok
      simp at hok

theorem decodeVarint_total (buf : List Nat) (pos : Nat) :
    (∃ p, decodeVarint buf pos = .ok p) ∨
      (∃ msg, decodeVarint buf pos = .error (.decodeErr msg)) :=
  decodeVarintLoop_total 6 buf pos 0 0 0 (by norm_num) (by norm_num)

theorem decodeVarint_progress (buf : List Nat) (pos v no : Nat)
    (h : decodeVarint buf pos = .ok (v, no)) : pos < no ∧ no ≤ buf.length :=
  decodeVarintLoop_progress 6 buf pos 0 0 0 v no h

/- ===== skipField lemmas ===== -/

theorem skipField_total (buf : List Nat) (off w : Nat) :
    (∃ o, skipField buf off w = .ok o) ∨
      (∃ msg, skipField buf off w = .error (.decodeErr msg)) := by
  unfold skipField
  by_cases h0 : w = WIRE_TYPE_VARINT
  · rw [if_pos h0]
    rcases decodeVarint_total buf off with ⟨⟨v, no⟩, h⟩ | ⟨msg, h⟩ <;> rw [h]
    · exact .inl ⟨_, rfl⟩
    · exact .inr ⟨_, rfl⟩
  · rw [if_neg h0]
    by_cases h1 : w = WIRE_TYPE_64BIT
    · rw [if_pos h1]
      by_cases hc : off + 8 > buf.length
      · rw [if_pos hc]; exact .inr ⟨_, rfl⟩
      · rw [if_neg hc]; exact .inl ⟨_, rfl⟩
    · rw [if_neg h1]
      by_cases h2 : w = WIRE_TYPE_LENGTH_DELIMITED
      · rw [if_pos h2]
        rcases decodeVarint_total buf off with ⟨⟨v, no⟩, h⟩ | ⟨msg, h⟩ <;> rw [h]
        · by_cases hc : no + v > buf.length
          · exact .inr ⟨"Length-delimited field exceeds buffer", by simp [hc]⟩
          · exact .inl ⟨no + v, by simp [hc]⟩
        · exact .inr ⟨_, rfl⟩
      · rw [if_neg h2]
        by_cases h5 : w = WIRE_TYPE_32BIT
        · rw [if_pos h5]
          by_cases hc : off + 4 > buf.length
          · rw [if_pos hc]; exact .inr ⟨_, rfl⟩
          · rw [if_neg hc]; exact .inl ⟨_, rfl⟩
        · rw [if_neg h5]; exact .inr ⟨_, rfl⟩

theorem skipField_progress (buf : List Nat) (off w o : Nat)
    (h : skipField buf off w = .ok o) : off < o ∧ o ≤ buf.length := by
  unfold skipField at h
  by_cases h0 : w = WIRE_TYPE_VARINT
  · rw [if_pos h0] at h
    cases hdv : decodeVarint buf off with
    | error e => rw [hdv] at h; simp at h
    | ok p =>
      rw [hdv] at h
      obtain ⟨v, no⟩ := p
      simp at h
      subst h
      exact decodeVarint_progress buf off v no hdv
  · rw [if_neg h0] at h
    by_cases h1 : w = WIRE_TYPE_64BIT
    · rw [if_pos h1] at h
      by_cases hc : off + 8 > buf.length
      · rw [if_pos hc] at h; simp at h
      · rw [if_neg hc] at h; simp at h; omega
    · rw [if_neg h1] at h
      by_cases h2 : w = WIRE_TYPE_LENGTH_DELIMITED
      · rw [if_pos h2] at h
        cases hdv : decodeVarint buf off with
        | error e => rw [hdv] at h; simp at h
        | ok p =>
          rw [hdv] at h
          obtain ⟨v, no⟩ := p
          by_cases hc : no + v > buf.length
          · simp [hc] at h
          · simp [hc] at h
            have := decodeVarint_progress buf off v no hdv
            omega
      · rw [if_neg h2] at h
        by_cases h5 : w = WIRE_TYPE_32BIT
        · rw [if_pos h5] at h
          by_cases hc : off + 4 > buf.length
          · rw [if_pos hc] at h; simp at h
          · rw [if_neg hc] at h; simp at h; omega
        · rw [if_neg h5] at h; simp at h

/- ===== Entry-loop step lemmas ===== -/

theorem decodeEntryLoop_done (f : Nat) (buf : List Nat) (off endp : Nat)
    (k v : Option Str) (h : ¬ off < endp) :
    decodeEntryLoop (f + 1) buf off endp k v = .ok (k, v, off) := by
  simp [decodeEntryLoop, h]

theorem decodeEntryLoop_tag_err (f : Nat) (buf : List Nat) (off endp : Nat)
    (k v : Option Str) (e : Err) (hoff : off < endp)
    (hdv : decodeVarint buf off = .error e) :
    decodeEntryLoop (f + 1) buf off endp k v = .error e := by
  simp [decodeEntryLoop, hoff, hdv]

theorem decodeEntryLoop_skip (f : Nat) (buf : List Nat) (off endp : Nat)
    (k v : Option Str) (tag te o1 : Nat) (hoff : off < endp)
    (hdv : decodeVarint buf off = .ok (tag, te))
    (hw : tag % 8 ≠ WIRE_TYPE_LENGTH_DELIMITED)
    (hskip : skipField buf te (tag % 8) = .ok o1) :
    decodeEntryLoop (f + 1) buf off endp k v = decodeEntryLoop f buf o1 endp k v := by
  simp [decodeEntryLoop, hoff, hdv, hw, hskip]

theorem decodeEntryLoop_skip_err (f : Nat) (buf : List Nat) (off endp : Nat)
    (k v : Option Str) (tag te : Nat) (e : Err) (hoff : off < endp)
    (hdv : decodeVarint buf off = .ok (tag, te))
    (hw : tag % 8 ≠ WIRE_TYPE_LENGTH_DELIMITED)
    (hskip : skipField buf te (tag % 8) = .error e) :
    decodeEntryLoop (f + 1) buf off endp k v = .error e := by
  simp [decodeEntryLoop, hoff, hdv, hw, hskip]

theorem decodeEntryLoop_len_err (f : Nat) (buf : List Nat) (off endp : Nat)
    (k v : Option Str) (tag te : Nat) (e : Err) (hoff : off < endp)
    (hdv : decodeVarint buf off = .ok (tag, te))
    (hw : tag % 8 = WIRE_TYPE_LENGTH_DELIMITED)
    (hdv2 : decodeVarint buf te = .error e) :
    decodeEntryLoop (f + 1) buf off endp k v = .error e := by
  simp [decodeEntryLoop, hoff, hdv, hw, hdv2]

theorem decodeEntryLoop_len_over (f : Nat) (buf : List Nat) (off endp : Nat)
    (k v : Option Str) (tag te sl ss : Nat) (hoff : off < endp)
    (hdv : decodeVarint buf off = .ok (tag, te))
    (hw : tag % 8 = WIRE_TYPE_LENGTH_DELIMITED)
    (hdv2 : decodeVarint buf te = .ok (sl, ss)) (hover : ss + sl > endp) :
    decodeEntryLoop (f + 1) buf off endp k v
      = .error (.decodeErr "String length exceeds sub-message boundary") := by
  simp [decodeEntryLoop, hoff, hdv, hw, hdv2, hover]

theorem decodeEntryLoop_str (f : Nat) (buf : List Nat) (off endp : Nat)
    (k v : Option Str) (tag te sl ss : Nat) (hoff : off < endp)
    (hdv : decodeVarint buf off = .ok (tag, te))
    (hw : tag % 8 = WIRE_TYPE_LENGTH_DELIMITED)
    (hdv2 : decodeVarint buf te = .ok (sl, ss)) (hover : ¬ ss + sl > endp) :
    decodeEntryLoop (f + 1) buf off endp k v
      = if tag / 8 = 1 then
          decodeEntryLoop f buf (ss + sl) endp (some (bytesAt buf ss sl)) v
        else if tag / 8 = 2 then
          decodeEntryLoop f buf (ss + sl) endp k (some (bytesAt buf ss sl))
        else decodeEntryLoop f buf (ss + sl) endp k v := by
  simp [decodeEntryLoop, hoff, hdv, hw, hdv2, hover]

/-- The entry sub-message loop is total: it returns the tracked fields and a
final offset no smaller than the start, or raises a DecodeError. -/
theorem decodeEntryLoop_total :
    ∀ (fuel : Nat) (buf : List Nat) (off endp : Nat) (k v : Option Str),
      endp ≤ buf.length → endp - off < fuel →
      (∃ kk vv oo, decodeEntryLoop fuel buf off endp k v = .ok (kk, vv, oo) ∧ off ≤ oo) ∨
        (∃ msg, decodeEntryLoop fuel buf off endp k v = .error (.decodeErr msg)) := by
  intro fuel
  induction fuel with
  | zero => intro buf off endp k v hend hf; omega
  | succ f ih =>
    intro buf off endp k v hend hf
    by_cases hoff : off < endp
    · rcases decodeVarint_total buf off with ⟨⟨tag, te⟩, hdv⟩ | ⟨msg, hdv⟩
      · have hte := decodeVarint_progress buf off tag te hdv
        by_cases hw : tag % 8 = WIRE_TYPE_LENGTH_DELIMITED
        · rcases decodeVarint_total buf te with ⟨⟨sl, ss⟩, hdv2⟩ | ⟨msg2, hdv2⟩
          · have hss := decodeVarint_progress buf te sl ss hdv2
            by_cases hover : ss + sl > endp
            · rw [decodeEntryLoop_len_over f buf off endp k v tag te sl ss hoff hdv hw hdv2
                hover]
              exact .inr ⟨_, rfl⟩
            · rw [decodeEntryLoop_str f buf off endp k v tag te sl ss hoff hdv hw hdv2 hover]
              have hrec : endp - (ss + sl) < f := by omega
              by_cases h1 : tag / 8 = 1
              · rw [if_pos h1]
                rcases ih buf (ss + sl) endp (some (bytesAt buf ss sl)) v hend hrec with
                  ⟨kk, vv, oo, hrr, hle⟩ | ⟨m3, hrr⟩
                · exact .inl ⟨kk, vv, oo, hrr, by omega⟩
                · exact .inr ⟨m3, hrr⟩
              · rw [if_neg h1]
                by_cases h2 : tag / 8 = 2
                · rw [if_pos h2]
                  rcases ih buf (ss + sl) endp k (some (bytesAt buf ss sl)) hend hrec with
                    ⟨kk, vv, oo, hrr, hle⟩ | ⟨m3, hrr⟩
                  · exact .inl ⟨kk, vv, oo, hrr, by omega⟩
                  · exact .inr ⟨m3, hrr⟩
                · rw [if_neg h2]
                  rcases ih buf (ss + sl) endp k v hend hrec with
                    ⟨kk, vv, oo, hrr, hle⟩ | ⟨m3, hrr⟩
                  · exact .inl ⟨kk, vv, oo, hrr, by omega⟩
                  · exact .inr ⟨m3, hrr⟩
          · rw [decodeEntryLoop_len_err f buf off endp k v tag te _ hoff hdv hw hdv2]
            exact .inr ⟨msg2, rfl⟩
        · rcases skipField_total buf te (tag % 8) with ⟨o1, hsk⟩ | ⟨m2, hsk⟩
          · have ho1 := skipField_progress buf te (tag % 8) o1 hsk
            rw [decodeEntryLoop_skip f buf off endp k v tag te o1 hoff hdv hw hsk]
            rcases ih buf o1 endp k v hend (by omega) with ⟨kk, vv, oo, hrr, hle⟩ | ⟨m3, hrr⟩
            · exact .inl ⟨kk, vv, oo, hrr, by omega⟩
            · exact .inr ⟨m3, hrr⟩
          · rw [decodeEntryLoop_skip_err f buf off endp k v tag te _ hoff hdv hw hsk]
            exact .inr ⟨m2, rfl⟩
      · rw [decodeEntryLoop_tag_err f buf off endp k v _ hoff hdv]
        exact .inr ⟨msg, rfl⟩
    · rw [decodeEntryLoop_done f buf off endp k v hoff]
      exact .inl ⟨k, v, off, rfl, le_refl _⟩

/- ===== Outer-loop step lemmas ===== -/

theorem decodeLoop_done (f : Nat) (buf : List Nat) (off : Nat) (r : JsObj)
    (h : ¬ off < buf.length) : decodeLoop (f + 1) buf off r = .ok r := by
  simp [decodeLoop, h]

theorem decodeLoop_tag_err (f : Nat) (buf : List Nat) (off : Nat) (r : JsObj) (e : Err)
    (hoff : off < buf.length) (hdv : decodeVarint buf off = .error e) :
    decodeLoop (f + 1) buf off r = .error e := by
  simp [decodeLoop, hoff, hdv]

theorem decodeLoop_skip (f : Nat) (buf : List Nat) (off : Nat) (r : JsObj)
    (tag te o1 : Nat) (hoff : off < buf.length)
    (hdv : decodeVarint buf off = .ok (tag, te))
    (hw : tag / 8 ≠ 1 ∨ tag % 8 ≠ WIRE_TYPE_LENGTH_DELIMITED)
    (hskip : skipField buf te (tag % 8) = .ok o1) :
    decodeLoop (f + 1) buf off r = decodeLoop f buf o1 r := by
  rcases hw with hw | hw <;> simp [decodeLoop, hoff, hdv, hw, hskip]

theorem decodeLoop_skip_err (f : Nat) (buf : List Nat) (off : Nat) (r : JsObj)
    (tag te : Nat) (e : Err) (hoff : off < buf.length)
    (hdv : decodeVarint buf off = .ok (tag, te))
    (hw : tag / 8 ≠ 1 ∨ tag % 8 ≠ WIRE_TYPE_LENGTH_DELIMITED)
    (hskip : skipField buf te (tag % 8) = .error e) :
    decodeLoop (f + 1) buf off r = .error e := by
  rcases hw with hw | hw <;> simp [decodeLoop, hoff, hdv, hw, hskip]

theorem decodeLoop_msglen_err (f : Nat) (buf : List Nat) (off : Nat) (r : JsObj)
    (tag te : Nat) (e : Err) (hoff : off < buf.length)
    (hdv : decodeVarint buf off = .ok (tag, te)) (hf1 : tag / 8 = 1)
    (hw : tag % 8 = WIRE_TYPE_LENGTH_DELIMITED)
    (hdv2 : decodeVarint buf te = .error e) :
    decodeLoop (f + 1) buf off r = .error e := by
  simp [decodeLoop, hoff, hdv, hf1, hw, hdv2]

theorem decodeLoop_msglen_over (f : Nat) (buf : List Nat) (off : Nat) (r : JsObj)
    (tag te ml ms : Nat) (hoff : off < buf.length)
    (hdv : decodeVarint buf off = .ok (tag, te)) (hf1 : tag / 8 = 1)
    (hw : tag % 8 = WIRE_TYPE_LENGTH_DELIMITED)
    (hdv2 : decodeVarint buf te = .ok (ml, ms)) (hover : ms + ml > buf.length) :
    decodeLoop (f + 1) buf off r = .error (.decodeErr "Sub-message length exceeds buffer") := by
  simp [decodeLoop, hoff, hdv, hf1, hw, hdv2, hover]

theorem decodeLoop_entry_err (f : Nat) (buf : List Nat) (off : Nat) (r : JsObj)
    (tag te ml ms : Nat) (e : Err) (hoff : off < buf.length)
    (hdv : decodeVarint buf off = .ok (tag, te)) (hf1 : tag / 8 = 1)
    (hw : tag % 8 = WIRE_TYPE_LENGTH_DELIMITED)
    (hdv2 : decodeVarint buf te = .ok (ml, ms)) (hover : ¬ ms + ml > buf.length)
    (hent : decodeEntryLoop (buf.length + 1) buf ms (ms + ml) none none = .error e) :
    decodeLoop (f + 1) buf off r = .error e := by
  simp [decodeLoop, hoff, hdv, hf1, hw, hdv2, hover, hent]

theorem decodeLoop_entry (f : Nat) (buf : List Nat) (off : Nat) (r : JsObj)
    (tag te ml ms o1 : Nat) (k v : Option Str) (hoff : off < buf.length)
    (hdv : decodeVarint buf off = .ok (tag, te)) (hf1 : tag / 8 = 1)
    (hw : tag % 8 = WIRE_TYPE_LENGTH_DELIMITED)
    (hdv2 : decodeVarint buf te = .ok (ml, ms)) (hover : ¬ ms + ml > buf.length)
    (hent : decodeEntryLoop (buf.length + 1) buf ms (ms + ml) none none = .ok (k, v, o1)) :
    decodeLoop (f + 1) buf off r =
      decodeLoop f buf o1
        (match k, v with
          | some kk, some vv => jsSet r kk vv
          | _, _ => r) := by
  rcases k with _ | kk <;> rcases v with _ | vv <;>
    simp [decodeLoop, hoff, hdv, hf1, hw, hdv2, hover, hent]

/-- The outer decode loop is total and raises only DecodeErrors. -/
theorem decodeLoop_total :
    ∀ (fuel : Nat) (buf : List Nat) (off : Nat) (r : JsObj),
      buf.length - off < fuel →
      (∃ m, decodeLoop fuel buf off r = .ok m) ∨
        (∃ msg, decodeLoop fuel buf off r = .error (.decodeErr msg)) := by
  intro fuel
  induction fuel with
  | zero => intro buf off r hf; omega
  | succ f ih =>
    intro buf off r hf
    by_cases hoff : off < buf.length
    · rcases decodeVarint_total buf off with ⟨⟨tag, te⟩, hdv⟩ | ⟨msg, hdv⟩
      · have hte := decodeVarint_progress buf off tag te hdv
        by_cases hfw : tag / 8 = 1 ∧ tag % 8 = WIRE_TYPE_LENGTH_DELIMITED
        · rcases decodeVarint_total buf te with ⟨⟨ml, ms⟩, hdv2⟩ | ⟨m2, hdv2⟩
          · have hms := decodeVarint_progress buf te ml ms hdv2
            by_cases hover : ms + ml > buf.length
            · rw [decodeLoop_msglen_over f buf off r tag te ml ms hoff hdv hfw.1 hfw.2 hdv2
                hover]
              exact .inr ⟨_, rfl⟩
            · have hend : ms + ml ≤ buf.length := by omega
              rcases decodeEntryLoop_total (buf.length + 1) buf ms (ms + ml) none none hend
                (by omega) with ⟨kk, vv, oo, hent, hle⟩ | ⟨m3, hent⟩
              · rw [decodeLoop_entry f buf off r tag te ml ms oo kk vv hoff hdv hfw.1 hfw.2
                  hdv2 hover hent]
                apply ih
                omega
              · rw [decodeLoop_entry_err f buf off r tag te ml ms _ hoff hdv hfw.1 hfw.2
                  hdv2 hover hent]
                exact .inr ⟨m3, rfl⟩
          · rw [decodeLoop_msglen_err f buf off r tag te _ hoff hdv hfw.1 hfw.2 hdv2]
            exact .inr ⟨m2, rfl⟩
        · have hw : tag / 8 ≠ 1 ∨ tag % 8 ≠ WIRE_TYPE_LENGTH_DELIMITED := by tauto
          rcases skipField_total buf te (tag % 8) with ⟨o1, hsk⟩ | ⟨m2, hsk⟩
          · have ho1 := skipField_progress buf te (tag % 8) o1 hsk
            rw [decodeLoop_skip f buf off r tag te o1 hoff hdv hw hsk]
            apply ih
            omega
          · rw [decodeLoop_skip_err f buf off r tag te _ hoff hdv hw hsk]
            exact .inr ⟨m2, rfl⟩
      · rw [decodeLoop_tag_err f buf off r _ hoff hdv]
        exact .inr ⟨msg, rfl⟩
    · rw [decodeLoop_done f buf off r hoff]
      exact .inl ⟨r, rfl⟩

theorem bytesAt_extract (pre s rest : List Nat) (hs : ∀ b ∈ s, b < 256) :
    bytesAt (pre ++ s ++ rest) pre.length s.length = s := by
  unfold bytesAt
  rw [List.append_assoc, List.drop_left, List.take_left]
  calc s.map (fun b => b % 256) = s.map id := by
        apply List.map_congr_left
        intro x hx
        exact Nat.mod_eq_of_lt (hs x hx)
  _ = s := List.map_id s

theorem encodeVarint_single (t : Nat) (h : t < 128) : encodeVarint t = [t] := by
  unfold encodeVarint
  rw [Nat.mod_eq_of_lt (by omega : t < 2 ^ 32)]
  unfold encodeVarintLoop
  rw [if_pos h]

theorem encodeVarint_length_pos (n : Nat) : 1 ≤ (encodeVarint n).length := by
  unfold encodeVarint encodeVarintLoop
  split <;> simp

/-- Decoding one encoded string field (tag byte `t`, varint length, bytes)
inside the entry loop: the string is recovered and bound according to the
field number `t / 8`. -/
theorem decodeEntryLoop_field (f : Nat) (p : List Nat) (t : Nat) (s : Str)
    (r2 : List Nat) (endp : Nat) (k0 v0 : Option Str)
    (hsb : ∀ b ∈ s, b < 256) (hs32 : s.length < 2 ^ 32)
    (ht : t < 128) (htw : t % 8 = WIRE_TYPE_LENGTH_DELIMITED)
    (hoff : p.length < endp)
    (hend : p.length + (1 + ((encodeVarint s.length).length + s.length)) ≤ endp) :
    decodeEntryLoop (f + 1) (p ++ t :: (encodeVarint s.length ++ (s ++ r2))) p.length endp
        k0 v0
      = (if t / 8 = 1 then
          decodeEntryLoop f (p ++ t :: (encodeVarint s.length ++ (s ++ r2)))
            (p.length + (1 + ((encodeVarint s.length).length + s.length))) endp (some s) v0
        else if t / 8 = 2 then
          decodeEntryLoop f (p ++ t :: (encodeVarint s.length ++ (s ++ r2)))
            (p.length + (1 + ((encodeVarint s.length).length + s.length))) endp k0 (some s)
        else
          decodeEntryLoop f (p ++ t :: (encodeVarint s.length ++ (s ++ r2)))
            (p.length + (1 + ((encodeVarint s.length).length + s.length))) endp k0 v0) := by
  have hdv1 : decodeVarint (p ++ t :: (encodeVarint s.length ++ (s ++ r2))) p.length
      = .ok (t, p.length + 1) := by
    have h := decodeVarint_encode t p (encodeVarint s.length ++ (s ++ r2)) (by omega)
    rw [encodeVarint_single t ht] at h
    have hb : (p ++ [t]) ++ (encodeVarint s.length ++ (s ++ r2))
        = p ++ t :: (encodeVarint s.length ++ (s ++ r2)) := by simp
    rw [hb] at h
    simpa using h
  have hdv2 : decodeVarint (p ++ t :: (encodeVarint s.length ++ (s ++ r2))) (p.length + 1)
      = .ok (s.length, p.length + (1 + (encodeVarint s.length).length)) := by
    have h := decodeVarint_encode s.length (p ++ [t]) (s ++ r2) hs32
    have hb : ((p ++ [t]) ++ encodeVarint s.length) ++ (s ++ r2)
        = p ++ t :: (encodeVarint s.length ++ (s ++ r2)) := by simp
    have hl : (p ++ [t]).length = p.length + 1 := by simp
    rw [hb, hl] at h
    rw [show p.length + (1 + (encodeVarint s.length).length)
        = p.length + 1 + (encodeVarint s.length).length from by omega]
    exact h
  have hstr : bytesAt (p ++ t :: (encodeVarint s.length ++ (s ++ r2)))
      (p.length + (1 + (encodeVarint s.length).length)) s.length = s := by
    have h := bytesAt_extract ((p ++ [t]) ++ encodeVarint s.length) s r2 hsb
    have hb : (((p ++ [t]) ++ encodeVarint s.length) ++ s) ++ r2
        = p ++ t :: (encodeVarint s.length ++ (s ++ r2)) := by simp
    have hl : ((p ++ [t]) ++ encodeVarint s.length).length
        = p.length + (1 + (encodeVarint s.length).length) := by
      simp only [List.length_append, List.length_cons, List.length_nil]
      omega
    rw [hb, hl] at h
    exact h
  have hover : ¬ (p.length + (1 + (encodeVarint s.length).length)) + s.length > endp := by
    omega
  rw [decodeEntryLoop_str f _ p.length endp k0 v0 t (p.length + 1) s.length
    (p.length + (1 + (encodeVarint s.length).length)) hoff hdv1 htw hdv2 hover, hstr,
    show p.length + (1 + (encodeVarint s.length).length) + s.length
      = p.length + (1 + ((encodeVarint s.length).length + s.length)) from by omega]

/-- The inner entry loop, run over the encoding of one entry, recovers its
key and value and stops exactly at the end of the sub-message. -/
theorem decodeEntryLoop_encode (k v : Str) (pre rest : List Nat) (f : Nat)
    (k0 v0 : Option Str)
    (hkb : ∀ b ∈ k, b < 256) (hvb : ∀ b ∈ v, b < 256)
    (hkl : k.length < 2 ^ 30) (hvl : v.length < 2 ^ 30) (hf : 3 ≤ f) :
    decodeEntryLoop f (pre ++ (encodeStringField 1 k ++ encodeStringField 2 v) ++ rest)
        pre.length (pre.length + (encodeStringField 1 k ++ encodeStringField 2 v).length)
        k0 v0
      = .ok (some k, some v,
          pre.length + (encodeStringField 1 k ++ encodeStringField 2 v).length) := by
  obtain ⟨f3, rfl⟩ : ∃ f3, f = f3 + 3 := ⟨f - 3, by omega⟩
  have hk32 : k.length < 2 ^ 32 := lt_trans hkl (by norm_num)
  have hv32 : v.length < 2 ^ 32 := lt_trans hvl (by norm_num)
  have htag1 : encodeVarint ((1 <<< 3) ||| WIRE_TYPE_LENGTH_DELIMITED) = [10] := by decide
  have htag2 : encodeVarint ((2 <<< 3) ||| WIRE_TYPE_LENGTH_DELIMITED) = [18] := by decide
  have hbuf : pre ++ (encodeStringField 1 k ++ encodeStringField 2 v) ++ rest
      = pre ++ 10 :: (encodeVarint k.length
          ++ (k ++ 18 :: (encodeVarint v.length ++ (v ++ rest)))) := by
    simp only [encodeStringField, htag1, htag2, List.append_assoc, List.singleton_append,
      List.cons_append, List.nil_append]
  have hlen : (encodeStringField 1 k ++ encodeStringField 2 v).length
      = 1 + ((encodeVarint k.length).length + k.length)
        + (1 + ((encodeVarint v.length).length + v.length)) := by
    simp only [encodeStringField, htag1, htag2, List.length_append, List.length_cons,
      List.length_nil]
    omega
  rw [hbuf]
  have h1 := decodeEntryLoop_field (f3 + 2) pre 10 k
    (18 :: (encodeVarint v.length ++ (v ++ rest)))
    (pre.length + (encodeStringField 1 k ++ encodeStringField 2 v).length) k0 v0
    hkb hk32 (by norm_num) (by decide)
    (by omega)
    (by omega)
  rw [show k ++ 18 :: (encodeVarint v.length ++ (v ++ rest))
      = k ++ (18 :: (encodeVarint v.length ++ (v ++ rest))) from rfl] at h1 ⊢
  rw [h1, if_pos (by norm_num : (10 : Nat) / 8 = 1)]
  have h2 := decodeEntryLoop_field (f3 + 1) (pre ++ 10 :: (encodeVarint k.length ++ k)) 18 v
    rest (pre.length + (encodeStringField 1 k ++ encodeStringField 2 v).length)
    (some k) v0 hvb hv32 (by norm_num) (by decide)
  have hb2 : (pre ++ 10 :: (encodeVarint k.length ++ k))
        ++ 18 :: (encodeVarint v.length ++ (v ++ rest))
      = pre ++ 10 :: (encodeVarint k.length
          ++ (k ++ 18 :: (encodeVarint v.length ++ (v ++ rest)))) := by
    simp
  have hp2 : (pre ++ 10 :: (encodeVarint k.length ++ k)).length
      = pre.length + (1 + ((encodeVarint k.length).length + k.length)) := by
    simp only [List.length_append, List.length_cons]
    omega
  rw [hb2, hp2] at h2
  have h2' := h2 (by omega) (by omega)
  rw [h2', if_neg (by norm_num : ¬ (18 : Nat) / 8 = 1),
    if_pos (by norm_num : (18 : Nat) / 8 = 2),
    show pre.length + (1 + ((encodeVarint k.length).length + k.length))
          + (1 + ((encodeVarint v.length).length + v.length))
        = pre.length + (encodeStringField 1 k ++ encodeStringField 2 v).length from by omega]
  exact decodeEntryLoop_done f3 _ _ _ _ _ (lt_irrefl _)

theorem decodeVarint_byte (t : Nat) (p r : List Nat) (h : t < 128) :
    decodeVarint (p ++ t :: r) p.length = .ok (t, p.length + 1) := by
  have hh := decodeVarint_encode t p r (by omega)
  rw [encodeVarint_single t h] at hh
  have hb : (p ++ [t]) ++ r = p ++ t :: r := by simp
  rw [hb] at hh
  simpa using hh

theorem encodeVarintLoop_length_le : ∀ (fuel v : Nat), (encodeVarintLoop fuel v).length ≤ fuel := by
  intro fuel
  induction fuel with
  | zero => intro v; simp [encodeVarintLoop]
  | succ f ih =>
    intro v
    unfold encodeVarintLoop
    by_cases h : v < 128
    · simp [h]
    · simp only [if_neg h, List.length_cons]
      have := ih (v / 128)
      omega

theorem encodeVarint_length_le (n : Nat) : (encodeVarint n).length ≤ 6 :=
  encodeVarintLoop_length_le 6 _

theorem decodeLoop_entry_kv (f : Nat) (buf : List Nat) (off : Nat) (r : JsObj)
    (tag te ml ms o1 : Nat) (kk vv : Str) (hoff : off < buf.length)
    (hdv : decodeVarint buf off = .ok (tag, te)) (hf1 : tag / 8 = 1)
    (hw : tag % 8 = WIRE_TYPE_LENGTH_DELIMITED)
    (hdv2 : decodeVarint buf te = .ok (ml, ms)) (hover : ¬ ms + ml > buf.length)
    (hent : decodeEntryLoop (buf.length + 1) buf ms (ms + ml) none none
      = .ok (some kk, some vv, o1)) :
    decodeLoop (f + 1) buf off r = decodeLoop f buf o1 (jsSet r kk vv) := by
  simp [decodeLoop, hoff, hdv, hf1, hw, hdv2, hover, hent]

/- ===== jsSet / foldl algebra ===== -/

theorem jsGet_append (a b : JsObj) (k : Str) :
    jsGet (a ++ b) k
      = match jsGet a k with
        | some v => some v
        | none => jsGet b k := by
  induction a with
  | nil => simp [jsGet]
  | cons p t ih =>
    simp only [List.cons_append, jsGet]
    by_cases h : p.1 = k
    · simp [h]
    · simp [h, ih]

theorem jsSet_append (acc : JsObj) (k v : Str) (h : jsGet acc k = none) :
    jsSet acc k v = acc ++ [(k, v)] := by
  induction acc with
  | nil => simp [jsSet]
  | cons p t ih =>
    simp only [jsGet] at h
    by_cases hp : p.1 = k
    · simp [hp] at h
    · rw [if_neg hp] at h
      simp only [jsSet, if_neg hp, List.cons_append]
      rw [ih h]

theorem foldl_jsSet_fresh :
    ∀ (es : JsObj) (acc : JsObj), (es.map Prod.fst).Nodup →
      (∀ p ∈ es, jsGet acc p.1 = none) →
      es.foldl (fun a p => jsSet a p.1 p.2) acc = acc ++ es := by
  intro es
  induction es with
  | nil => intro acc _ _; simp
  | cons e t ih =>
    intro acc hnd hfresh
    simp only [List.foldl_cons]
    rw [jsSet_append acc e.1 e.2 (hfresh e (List.mem_cons_self e t))]
    have hnd1 : (t.map Prod.fst).Nodup := by
      simp only [List.map_cons, List.nodup_cons] at hnd
      exact hnd.2
    have hhead : e.1 ∉ t.map Prod.fst := by
      simp only [List.map_cons, List.nodup_cons] at hnd
      exact hnd.1
    have hfresh1 : ∀ p ∈ t, jsGet (acc ++ [(e.1, e.2)]) p.1 = none := by
      intro p hp
      rw [jsGet_append, hfresh p (List.mem_cons_of_mem e hp)]
      have hne : ¬ e.1 = p.1 := by
        intro hc
        exact hhead (hc ▸ List.mem_map_of_mem Prod.fst hp)
      simp [jsGet, hne]
    rw [ih (acc ++ [(e.1, e.2)]) hnd1 hfresh1]
    simp

/-- Running the outer decode loop over the encoding of an entry list, after
an arbitrary prefix, folds every entry into the result object in order. -/
theorem decodeLoop_encode :
    ∀ (es : JsObj) (pre : List Nat) (r : JsObj) (fuel : Nat),
      (∀ p ∈ es, (∀ b ∈ p.1, b < 256) ∧ (∀ b ∈ p.2, b < 256) ∧
        p.1.length < 2 ^ 30 ∧ p.2.length < 2 ^ 30) →
      es.length < fuel →
      decodeLoop fuel (pre ++ encodeKeystoreData es) pre.length r
        = .ok (es.foldl (fun a p => jsSet a p.1 p.2) r) := by
  intro es
  induction es with
  | nil =>
    intro pre r fuel _ hfuel
    obtain ⟨f, rfl⟩ : ∃ f, fuel = f + 1 := ⟨fuel - 1, by omega⟩
    have henc : encodeKeystoreData ([] : JsObj) = [] := by simp [encodeKeystoreData]
    rw [henc, List.append_nil, List.foldl_nil]
    exact decodeLoop_done f pre pre.length r (lt_irrefl _)
  | cons e t ih =>
    intro pre r fuel hgood hfuel
    obtain ⟨f, rfl⟩ : ∃ f, fuel = f + 1 := ⟨fuel - 1, by omega⟩
    obtain ⟨k, v⟩ := e
    obtain ⟨hkb0, hvb0, hkl0, hvl0⟩ := hgood (k, v) (List.mem_cons_self _ _)
    have hkb : ∀ b ∈ k, b < 256 := hkb0
    have hvb : ∀ b ∈ v, b < 256 := hvb0
    have hkl : k.length < 2 ^ 30 := hkl0
    have hvl : v.length < 2 ^ 30 := hvl0
    have htag1 : encodeVarint ((1 <<< 3) ||| WIRE_TYPE_LENGTH_DELIMITED) = [10] := by decide
    have htag2 : encodeVarint ((2 <<< 3) ||| WIRE_TYPE_LENGTH_DELIMITED) = [18] := by decide
    have hunfold : pre ++ encodeKeystoreData ((k, v) :: t)
        = pre ++ 10 :: (encodeVarint (encodeStringField 1 k ++ encodeStringField 2 v).length
            ++ (encodeStringField 1 k ++ (encodeStringField 2 v ++ encodeKeystoreData t))) := by
      simp only [encodeKeystoreData, List.map_cons, List.flatten_cons, htag1,
        List.append_assoc, List.cons_append, List.singleton_append, List.nil_append]
    rw [hunfold]
    have hesf1len : (encodeStringField 1 k).length
        = 1 + ((encodeVarint k.length).length + k.length) := by
      simp only [encodeStringField, htag1, List.length_append, List.length_cons,
        List.length_nil]
      omega
    have hesf2len : (encodeStringField 2 v).length
        = 1 + ((encodeVarint v.length).length + v.length) := by
      simp only [encodeStringField, htag2, List.length_append, List.length_cons,
        List.length_nil]
      omega
    have hLk := encodeVarint_length_le k.length
    have hLv := encodeVarint_length_le v.length
    have hpow : (2 : Nat) ^ 30 + 2 ^ 30 + 14 < 2 ^ 32 := by norm_num
    have helenappend : (encodeStringField 1 k ++ encodeStringField 2 v).length
        = (encodeStringField 1 k).length + (encodeStringField 2 v).length :=
      List.length_append _ _
    have helen32 : (encodeStringField 1 k ++ encodeStringField 2 v).length < 2 ^ 32 := by
      omega
    have hBlen : (pre ++ 10 :: (encodeVarint
          (encodeStringField 1 k ++ encodeStringField 2 v).length
          ++ (encodeStringField 1 k ++ (encodeStringField 2 v
            ++ encodeKeystoreData t)))).length
        = pre.length + 1
          + (encodeVarint (encodeStringField 1 k ++ encodeStringField 2 v).length).length
          + (encodeStringField 1 k).length + (encodeStringField 2 v).length
          + (encodeKeystoreData t).length := by
      simp only [List.length_append, List.length_cons]
      omega
    have hoff : pre.length < (pre ++ 10 :: (encodeVarint
          (encodeStringField 1 k ++ encodeStringField 2 v).length
          ++ (encodeStringField 1 k ++ (encodeStringField 2 v
            ++ encodeKeystoreData t)))).length := by
      rw [hBlen]
      omega
    have hdv1 : decodeVarint (pre ++ 10 :: (encodeVarint
          (encodeStringField 1 k ++ encodeStringField 2 v).length
          ++ (encodeStringField 1 k ++ (encodeStringField 2 v
            ++ encodeKeystoreData t)))) pre.length = .ok (10, pre.length + 1) :=
      decodeVarint_byte 10 pre _ (by norm_num)
    have hdv2 : decodeVarint (pre ++ 10 :: (encodeVarint
          (encodeStringField 1 k ++ encodeStringField 2 v).length
          ++ (encodeStringField 1 k ++ (encodeStringField 2 v
            ++ encodeKeystoreData t)))) (pre.length + 1)
        = .ok ((encodeStringField 1 k ++ encodeStringField 2 v).length,
            pre.length + 1 + (encodeVarint
              (encodeStringField 1 k ++ encodeStringField 2 v).length).length) := by
      have h := decodeVarint_encode (encodeStringField 1 k ++ encodeStringField 2 v).length
        (pre ++ [10])
        (encodeStringField 1 k ++ (encodeStringField 2 v ++ encodeKeystoreData t)) helen32
      have hb : ((pre ++ [10]) ++ encodeVarint
            (encodeStringField 1 k ++ encodeStringField 2 v).length)
            ++ (encodeStringField 1 k ++ (encodeStringField 2 v ++ encodeKeystoreData t))
          = pre ++ 10 :: (encodeVarint
            (encodeStringField 1 k ++ encodeStringField 2 v).length
            ++ (encodeStringField 1 k ++ (encodeStringField 2 v
              ++ encodeKeystoreData t))) := by
        simp
      have hl : (pre ++ [10]).length = pre.length + 1 := by simp
      rw [hb, hl] at h
      exact h
    have hent0 := decodeEntryLoop_encode k v
      ((pre ++ [10]) ++ encodeVarint (encodeStringField 1 k ++ encodeStringField 2 v).length)
      (encodeKeystoreData t)
      ((pre ++ 10 :: (encodeVarint (encodeStringField 1 k ++ encodeStringField 2 v).length
        ++ (encodeStringField 1 k ++ (encodeStringField 2 v
          ++ encodeKeystoreData t)))).length + 1)
      none none hkb hvb hkl hvl (by rw [hBlen]; omega)
    have hb2 : (((pre ++ [10]) ++ encodeVarint
          (encodeStringField 1 k ++ encodeStringField 2 v).length)
          ++ (encodeStringField 1 k ++ encodeStringField 2 v)) ++ encodeKeystoreData t
        = pre ++ 10 :: (encodeVarint
          (encodeStringField 1 k ++ encodeStringField 2 v).length
          ++ (encodeStringField 1 k ++ (encodeStringField 2 v
            ++ encodeKeystoreData t))) := by
      simp
    have hl2 : ((pre ++ [10]) ++ encodeVarint
          (encodeStringField 1 k ++ encodeStringField 2 v).length).length
        = pre.length + 1 + (encodeVarint
            (encodeStringField 1 k ++ encodeStringField 2 v).length).length := by
      simp only [List.length_append, List.length_cons, List.length_nil]
      try omega
    rw [hb2, hl2] at hent0
    have hover : ¬ (pre.length + 1 + (encodeVarint
          (encodeStringField 1 k ++ encodeStringField 2 v).length).length)
          + (encodeStringField 1 k ++ encodeStringField 2 v).length
        > (pre ++ 10 :: (encodeVarint
          (encodeStringField 1 k ++ encodeStringField 2 v).length
          ++ (encodeStringField 1 k ++ (encodeStringField 2 v
            ++ encodeKeystoreData t)))).length := by
      rw [hBlen]
      omega
    rw [decodeLoop_entry_kv f _ pre.length r 10 (pre.length + 1)
      (encodeStringField 1 k ++ encodeStringField 2 v).length
      (pre.length + 1 + (encodeVarint
        (encodeStringField 1 k ++ encodeStringField 2 v).length).length)
      (pre.length + 1 + (encodeVarint
        (encodeStringField 1 k ++ encodeStringField 2 v).length).length
        + (encodeStringField 1 k ++ encodeStringField 2 v).length)
      k v hoff hdv1 (by norm_num) (by decide) hdv2 hover hent0]
    have ihh := ih ((pre ++ [10]) ++ encodeVarint
        (encodeStringField 1 k ++ encodeStringField 2 v).length
        ++ (encodeStringField 1 k ++ encodeStringField 2 v))
      (jsSet r k v) f
      (fun p hp => hgood p (List.mem_cons_of_mem _ hp)) (by simpa using hfuel)
    have hb3 : (((pre ++ [10]) ++ encodeVarint
          (encodeStringField 1 k ++ encodeStringField 2 v).length
          ++ (encodeStringField 1 k ++ encodeStringField 2 v)))
          ++ encodeKeystoreData t
        = pre ++ 10 :: (encodeVarint
          (encodeStringField 1 k ++ encodeStringField 2 v).length
          ++ (encodeStringField 1 k ++ (encodeStringField 2 v
            ++ encodeKeystoreData t))) := by
      simp
    have hl3 : ((pre ++ [10]) ++ encodeVarint
          (encodeStringField 1 k ++ encodeStringField 2 v).length
          ++ (encodeStringField 1 k ++ encodeStringField 2 v)).length
        = pre.length + 1 + (encodeVarint
            (encodeStringField 1 k ++ encodeStringField 2 v).length).length
          + (encodeStringField 1 k ++ encodeStringField 2 v).length := by
      simp only [List.length_append, List.length_cons, List.length_nil]
      try omega
    rw [hb3, hl3] at ihh
    rw [List.foldl_cons]
    exact ihh

theorem encodeKeystoreData_length_ge (es : JsObj) :
    es.length ≤ (encodeKeystoreData es).length := by
  induction es with
  | nil => simp [encodeKeystoreData]
  | cons e t ih =>
    have h1 := encodeVarint_length_pos ((1 <<< 3) ||| WIRE_TYPE_LENGTH_DELIMITED)
    simp only [encodeKeystoreData, List.map_cons, List.flatten_cons, List.length_cons,
      List.length_append] at ih ⊢
    omega

/- ===== Claim C1 ===== -/

/-- C1: for every string-to-string mapping M (a JavaScript object: unique
keys, byte-valued strings of bounded length), decoding the bytes produced by
encoding M returns exactly M: `decodeKeystoreData (encodeKeystoreData M) = M`,
including the empty mapping. -/
theorem c1_decode_encode_roundtrip (M : JsObj)
    (hbytes : ∀ p ∈ M, (∀ b ∈ p.1, b < 256) ∧ (∀ b ∈ p.2, b < 256)
      ∧ p.1.length < 2 ^ 30 ∧ p.2.length < 2 ^ 30)
    (hnd : (M.map Prod.fst).Nodup) :
    decodeKeystoreData (encodeKeystoreData M) = .ok M := by
  unfold decodeKeystoreData
  have h := decodeLoop_encode M [] [] ((encodeKeystoreData M).length + 1) hbytes
    (by have := encodeKeystoreData_length_ge M; omega)
  simp only [List.nil_append, List.length_nil] at h
  rw [h, foldl_jsSet_fresh M [] hnd (fun p _ => rfl)]
  simp

/-- Witness for C1: a concrete two-entry mapping round-trips. -/
theorem c1_decode_encode_roundtrip_witness :
    decodeKeystoreData (encodeKeystoreData [([107], [118, 97]), ([98], [99])])
      = .ok [([107], [118, 97]), ([98], [99])] :=
  c1_decode_encode_roundtrip [([107], [118, 97]), ([98], [99])] (by decide) (by decide)

theorem byteAt_cons (a : Nat) (l : List Nat) (i : Nat) :
    byteAt (a :: l) (1 + i) = byteAt l i := by
  have h := byteAt_append [a] l i
  simpa using h

theorem decodeVarint_byte0 (t : Nat) (r : List Nat) (h : t < 128) :
    decodeVarint (t :: r) 0 = .ok (t, 1) := by
  have hh := decodeVarint_byte t [] r h
  simpa using hh

theorem encodeVarint_structure (n : Nat) (h : n < 2 ^ 32) :
    ∃ cs last, encodeVarint n = cs ++ [last] ∧
      (∀ b ∈ cs, 128 ≤ b ∧ b < 256) ∧ last < 128 := by
  unfold encodeVarint
  rw [Nat.mod_eq_of_lt h]
  exact encodeVarintLoop_structure 6 n (by norm_num) (lt_trans h (by norm_num))

/-- Reading a byte of a list of continuation bytes always yields a byte with
the high bit set. -/
theorem byteAt_cont (l : List Nat) (hl : ∀ b ∈ l, 128 ≤ b ∧ b < 256) (i b : Nat)
    (h : byteAt l i = some b) : 128 ≤ b := by
  unfold byteAt at h
  cases hg : l.get? i with
  | none => rw [hg] at h; simp at h
  | some x =>
    rw [hg] at h
    simp at h
    have hx : x ∈ l := List.get?_mem hg
    have := hl x hx
    omega

/- ===== Claim C2 ===== -/

/-- C2 counterexample: for the two-entry mapping a -> b, c -> d, cutting the
last k = 8 bytes (with 1 <= 8 < 16 = encoded length) truncates exactly at
the boundary between the two entry frames, and decoding the remaining bytes
succeeds with the first entry instead of raising a DecodeError. -/
theorem c2_truncation_counterexample :
    1 ≤ 8 ∧
    8 < (encodeKeystoreData [([97], [98]), ([99], [100])]).length ∧
    decodeKeystoreData ((encodeKeystoreData [([97], [98]), ([99], [100])]).take
        ((encodeKeystoreData [([97], [98]), ([99], [100])]).length - 8))
      = .ok [([97], [98])] :=
  ⟨by norm_num, by decide, by rfl⟩

/-- C2 (amended to single-entry mappings): for a mapping with exactly one
entry and any truncation length kcut with 1 <= kcut < encoded length,
decoding the truncated bytes raises a DecodeError. -/
theorem c2_truncated_single_entry_decode_fails (k v : Str) (kcut : Nat)
    (hkl : k.length < 2 ^ 30) (hvl : v.length < 2 ^ 30)
    (hc1 : 1 ≤ kcut) (hc2 : kcut < (encodeKeystoreData [(k, v)]).length) :
    ∃ msg, decodeKeystoreData ((encodeKeystoreData [(k, v)]).take
        ((encodeKeystoreData [(k, v)]).length - kcut)) = .error (.decodeErr msg) := by
  have htag1 : encodeVarint ((1 <<< 3) ||| WIRE_TYPE_LENGTH_DELIMITED) = [10] := by decide
  have htag2 : encodeVarint ((2 <<< 3) ||| WIRE_TYPE_LENGTH_DELIMITED) = [18] := by decide
  have hunf : encodeKeystoreData [(k, v)]
      = 10 :: (encodeVarint (encodeStringField 1 k ++ encodeStringField 2 v).length
          ++ (encodeStringField 1 k ++ encodeStringField 2 v)) := by
    simp only [encodeKeystoreData, List.map_cons, List.map_nil, List.flatten_cons,
      List.flatten_nil, List.append_nil, htag1, List.append_assoc, List.cons_append,
      List.singleton_append, List.nil_append]
  have hesf1len : (encodeStringField 1 k).length
      = 1 + ((encodeVarint k.length).length + k.length) := by
    simp only [encodeStringField, htag1, List.length_append, List.length_cons,
      List.length_nil]
    omega
  have hesf2len : (encodeStringField 2 v).length
      = 1 + ((encodeVarint v.length).length + v.length) := by
    simp only [encodeStringField, htag2, List.length_append, List.length_cons,
      List.length_nil]
    omega
  have hLk := encodeVarint_length_le k.length
  have hLv := encodeVarint_length_le v.length
  have hpow : (2 : Nat) ^ 30 + 2 ^ 30 + 14 < 2 ^ 32 := by norm_num
  have helenappend : (encodeStringField 1 k ++ encodeStringField 2 v).length
      = (encodeStringField 1 k).length + (encodeStringField 2 v).length :=
    List.length_append _ _
  have helen32 : (encodeStringField 1 k ++ encodeStringField 2 v).length < 2 ^ 32 := by
    omega
  obtain ⟨cs, last, hlenv, hcs, hlast⟩ := encodeVarint_structure
    (encodeStringField 1 k ++ encodeStringField 2 v).length helen32
  have hLe : (encodeVarint
      (encodeStringField 1 k ++ encodeStringField 2 v).length).length
      = cs.length + 1 := by
    rw [hlenv]
    simp
  have hLtot : (encodeKeystoreData [(k, v)]).length
      = 1 + ((cs.length + 1)
          + (encodeStringField 1 k ++ encodeStringField 2 v).length) := by
    rw [hunf, List.length_cons, List.length_append, hLe]
    omega
  obtain ⟨jj, hjj⟩ : ∃ jj, (encodeKeystoreData [(k, v)]).length - kcut = jj + 1 :=
    ⟨(encodeKeystoreData [(k, v)]).length - kcut - 1, by omega⟩
  have hjlt : jj + 1 < (encodeKeystoreData [(k, v)]).length := by omega
  rw [hjj, hunf, List.take_succ_cons]
  have htl : ((encodeVarint (encodeStringField 1 k ++ encodeStringField 2 v).length
      ++ (encodeStringField 1 k ++ encodeStringField 2 v)).take jj).length = jj := by
    rw [List.length_take]
    rw [hunf] at hjlt
    simp only [List.length_cons] at hjlt
    omega
  unfold decodeKeystoreData
  rw [show (10 :: (encodeVarint
        (encodeStringField 1 k ++ encodeStringField 2 v).length
        ++ (encodeStringField 1 k ++ encodeStringField 2 v)).take jj).length
      = jj + 1 from by rw [List.length_cons, htl]]
  have hoff : 0 < (10 :: (encodeVarint
      (encodeStringField 1 k ++ encodeStringField 2 v).length
      ++ (encodeStringField 1 k ++ encodeStringField 2 v)).take jj).length := by
    simp
  have hdv1 : decodeVarint (10 :: (encodeVarint
      (encodeStringField 1 k ++ encodeStringField 2 v).length
      ++ (encodeStringField 1 k ++ encodeStringField 2 v)).take jj) 0
      = .ok (10, 1) := decodeVarint_byte0 10 _ (by norm_num)
  rcases Nat.lt_or_ge jj (cs.length + 1) with hA | hB
  · -- truncation cuts into (or right before) the length varint
    have hXt : (encodeVarint (encodeStringField 1 k ++ encodeStringField 2 v).length
        ++ (encodeStringField 1 k ++ encodeStringField 2 v)).take jj
        = cs.take jj := by
      rw [hlenv, List.append_assoc, List.take_append_eq_append_take,
        show jj - cs.length = 0 from by omega, List.take_zero, List.append_nil]
    rw [hXt] at hdv1 hoff ⊢
    obtain ⟨m2, hm2⟩ := decodeVarintLoop_allCont 6 (10 :: cs.take jj) 1 0 0 0
      (by norm_num) (by norm_num)
      (fun i b _ hb => by
        rw [byteAt_cons] at hb
        exact byteAt_cont (cs.take jj)
          (fun x hx => hcs x (List.mem_of_mem_take hx)) i b hb)
    exact ⟨m2, by
      rw [decodeLoop_msglen_err (jj + 1) _ 0 [] 10 1 (.decodeErr m2) hoff hdv1
        (by norm_num) (by decide) hm2]⟩
  · -- the length varint is complete; the declared length overruns the cut
    have hXt : (encodeVarint (encodeStringField 1 k ++ encodeStringField 2 v).length
        ++ (encodeStringField 1 k ++ encodeStringField 2 v)).take jj
        = encodeVarint (encodeStringField 1 k ++ encodeStringField 2 v).length
          ++ (encodeStringField 1 k ++ encodeStringField 2 v).take
              (jj - (cs.length + 1)) := by
      have h1 : (encodeVarint
          (encodeStringField 1 k ++ encodeStringField 2 v).length).take jj
          = encodeVarint (encodeStringField 1 k ++ encodeStringField 2 v).length :=
        List.take_of_length_le (by rw [hLe]; omega)
      have h2 : jj - (encodeVarint
          (encodeStringField 1 k ++ encodeStringField 2 v).length).length
          = jj - (cs.length + 1) := by rw [hLe]
      rw [List.take_append_eq_append_take, h1, h2]
    rw [hXt] at hdv1 hoff ⊢
    have hlen2 : (10 :: (encodeVarint
        (encodeStringField 1 k ++ encodeStringField 2 v).length
        ++ (encodeStringField 1 k ++ encodeStringField 2 v).take
            (jj - (cs.length + 1)))).length = jj + 1 := by
      rw [List.length_cons, ← hXt, htl]
    have hdv2 : decodeVarint (10 :: (encodeVarint
        (encodeStringField 1 k ++ encodeStringField 2 v).length
        ++ (encodeStringField 1 k ++ encodeStringField 2 v).take
            (jj - (cs.length + 1)))) 1
        = .ok ((encodeStringField 1 k ++ encodeStringField 2 v).length,
            1 + (cs.length + 1)) := by
      have h := decodeVarint_encode
        (encodeStringField 1 k ++ encodeStringField 2 v).length [10]
        ((encodeStringField 1 k ++ encodeStringField 2 v).take (jj - (cs.length + 1)))
        helen32
      have hb : ([10] ++ encodeVarint
            (encodeStringField 1 k ++ encodeStringField 2 v).length)
            ++ ((encodeStringField 1 k ++ encodeStringField 2 v).take
              (jj - (cs.length + 1)))
          = 10 :: (encodeVarint
            (encodeStringField 1 k ++ encodeStringField 2 v).length
            ++ (encodeStringField 1 k ++ encodeStringField 2 v).take
                (jj - (cs.length + 1))) := by
        simp
      rw [hb] at h
      have h10 : ([10] : List Nat).length = 1 := rfl
      rw [h10, hLe] at h
      exact h
    have hover : 1 + (cs.length + 1)
        + (encodeStringField 1 k ++ encodeStringField 2 v).length
        > (10 :: (encodeVarint
          (encodeStringField 1 k ++ encodeStringField 2 v).length
          ++ (encodeStringField 1 k ++ encodeStringField 2 v).take
              (jj - (cs.length + 1)))).length := by
      rw [hlen2]
      omega
    exact ⟨"Sub-message length exceeds buffer", by
      rw [decodeLoop_msglen_over (jj + 1) _ 0 [] 10 1
        (encodeStringField 1 k ++ encodeStringField 2 v).length (1 + (cs.length + 1))
        hoff hdv1 (by norm_num) (by decide) hdv2 hover]⟩

/-- Witness for the amended C2: a concrete single-entry mapping with a
concrete cut. -/
theorem c2_truncated_single_entry_witness :
    (1 ≤ 3 ∧ 3 < (encodeKeystoreData [([97], [98])]).length) ∧
    ∃ msg, decodeKeystoreData ((encodeKeystoreData [([97], [98])]).take
        ((encodeKeystoreData [([97], [98])]).length - 3))
      = .error (.decodeErr msg) :=
  ⟨⟨by norm_num, by decide⟩,
    c2_truncated_single_entry_decode_fails [97] [98] 3
      (by decide) (by decide) (by decide) (by decide)⟩

/-- The object built by the decode loop is the fold of the entry stream. -/
theorem decodeLoop_eq_entriesLoop :
    ∀ (fuel : Nat) (buf : List Nat) (off : Nat) (r : JsObj),
      decodeLoop fuel buf off r
        = (decodeEntriesLoop fuel buf off).map
            (fun es => es.foldl (fun a p => jsSet a p.1 p.2) r) := by
  intro fuel
  induction fuel with
  | zero => intro buf off r; simp [decodeLoop, decodeEntriesLoop, Except.map]
  | succ f ih =>
    intro buf off r
    by_cases hoff : off < buf.length
    · cases hdv : decodeVarint buf off with
      | error e =>
        rw [decodeLoop_tag_err f buf off r e hoff hdv]
        simp [decodeEntriesLoop, hoff, hdv, Except.map]
      | ok p =>
        obtain ⟨tag, te⟩ := p
        by_cases hfw : tag / 8 = 1 ∧ tag % 8 = WIRE_TYPE_LENGTH_DELIMITED
        · cases hdv2 : decodeVarint buf te with
          | error e =>
            rw [decodeLoop_msglen_err f buf off r tag te e hoff hdv hfw.1 hfw.2 hdv2]
            simp [decodeEntriesLoop, hoff, hdv, hfw.1, hfw.2, hdv2, Except.map]
          | ok q =>
            obtain ⟨ml, ms⟩ := q
            by_cases hover : ms + ml > buf.length
            · rw [decodeLoop_msglen_over f buf off r tag te ml ms hoff hdv hfw.1 hfw.2
                hdv2 hover]
              simp [decodeEntriesLoop, hoff, hdv, hfw.1, hfw.2, hdv2, hover, Except.map]
            · cases hent : decodeEntryLoop (buf.length + 1) buf ms (ms + ml) none none with
              | error e =>
                rw [decodeLoop_entry_err f buf off r tag te ml ms e hoff hdv hfw.1 hfw.2
                  hdv2 hover hent]
                simp [decodeEntriesLoop, hoff, hdv, hfw.1, hfw.2, hdv2, hover, hent,
                  Except.map]
              | ok t3 =>
                obtain ⟨kk, vv, oo⟩ := t3
                cases kk with
                | some k1 =>
                  cases vv with
                  | some v1 =>
                    rw [decodeLoop_entry_kv f buf off r tag te ml ms oo k1 v1 hoff hdv
                      hfw.1 hfw.2 hdv2 hover hent, ih buf oo (jsSet r k1 v1)]
                    simp only [decodeEntriesLoop, hoff, if_pos hoff, hdv, hfw.1, hfw.2,
                      hdv2, hover, hent]
                    cases he : decodeEntriesLoop f buf oo <;>
                      simp [he, Except.map, List.foldl_cons, hfw.1, hfw.2, hover, hent,
                        hdv2, hdv, hoff]
                  | none =>
                    rw [decodeLoop_entry f buf off r tag te ml ms oo (some k1) none hoff
                      hdv hfw.1 hfw.2 hdv2 hover hent, ih buf oo r]
                    simp [decodeEntriesLoop, hoff, hdv, hfw.1, hfw.2, hdv2, hover, hent,
                      Except.map]
                | none =>
                  rw [decodeLoop_entry f buf off r tag te ml ms oo none vv hoff hdv
                    hfw.1 hfw.2 hdv2 hover hent, ih buf oo r]
                  simp [decodeEntriesLoop, hoff, hdv, hfw.1, hfw.2, hdv2, hover, hent,
                    Except.map]
        · have hw : tag / 8 ≠ 1 ∨ tag % 8 ≠ WIRE_TYPE_LENGTH_DELIMITED := by tauto
          cases hsk : skipField buf te (tag % 8) with
          | error e =>
            rw [decodeLoop_skip_err f buf off r tag te e hoff hdv hw hsk]
            rcases hw with hw1 | hw1 <;>
              simp [decodeEntriesLoop, hoff, hdv, hw1, hsk, Except.map]
          | ok o1 =>
            rw [decodeLoop_skip f buf off r tag te o1 hoff hdv hw hsk, ih buf o1 r]
            rcases hw with hw1 | hw1 <;>
              simp [decodeEntriesLoop, hoff, hdv, hw1, hsk, Except.map]
    · rw [decodeLoop_done f buf off r hoff]
      simp [decodeEntriesLoop, hoff, Except.map]

theorem jsGet_foldl_lastVal :
    ∀ (es : List (Str × Str)) (r : JsObj) (k2 : Str),
      jsGet (es.foldl (fun a p => jsSet a p.1 p.2) r) k2
        = match lastVal es k2 with
          | some v => some v
          | none => jsGet r k2 := by
  intro es
  induction es with
  | nil => intro r k2; simp [lastVal]
  | cons e t ih =>
    intro r k2
    rw [List.foldl_cons, ih]
    simp only [lastVal]
    cases hl : lastVal t k2 with
    | some v => simp
    | none =>
      rw [jsGet_jsSet]
      by_cases he : k2 = e.1
      · subst he
        simp
      · rw [if_neg he, if_neg (fun hc : e.1 = k2 => he hc.symm)]

/- ===== Claim C7 ===== -/

/-- C7: for every byte sequence that `decodeKeystoreData` accepts, the
resulting mapping binds each key to the value of the last entry for that key
in the byte sequence: looking a key up in the result equals taking the last
occurrence in the decoded entry stream. -/
theorem c7_last_occurrence_wins (buf : List Nat) (m : JsObj)
    (h : decodeKeystoreData buf = .ok m) :
    ∃ es, decodeEntries buf = .ok es ∧ ∀ k2, jsGet m k2 = lastVal es k2 := by
  unfold decodeKeystoreData at h
  rw [decodeLoop_eq_entriesLoop] at h
  unfold decodeEntries
  cases he : decodeEntriesLoop (buf.length + 1) buf 0 with
  | error e => rw [he] at h; simp [Except.map] at h
  | ok es =>
    rw [he] at h
    simp only [Except.map] at h
    refine ⟨es, rfl, fun k2 => ?_⟩
    have hm : es.foldl (fun a p => jsSet a p.1 p.2) [] = m := by
      cases h
      rfl
    rw [← hm, jsGet_foldl_lastVal]
    cases lastVal es k2 <;> simp [jsGet]

/-- Witness for C7: a buffer with two entries for the same key decodes to
the value of the second (last) one. -/
theorem c7_last_occurrence_wins_witness :
    ∃ es, decodeEntries
        (encodeKeystoreData [([97], [98])] ++ encodeKeystoreData [([97], [100])])
        = .ok es ∧
      ∀ k2, jsGet [([97], [100])] k2 = lastVal es k2 :=
  c7_last_occurrence_wins
    (encodeKeystoreData [([97], [98])] ++ encodeKeystoreData [([97], [100])])
    [([97], [100])] (by rfl)

/- ===== Claim C8 ===== -/

/-- C8: varint decoding reads at most 5 bytes: whenever the five bytes after
the offset that exist in the buffer all carry the continuation bit (in
particular when a 6th continuation byte would be required, or when the
buffer ends mid-varint), `decodeVarint` raises a DecodeError; and a
length-delimited field whose decoded length reads past the end of the
buffer makes `skipField` raise a DecodeError. -/
theorem c8_varint_bounds (buf : List Nat) (offset : Nat) :
    ((∀ i b, i < 5 → byteAt buf (offset + i) = some b → 128 ≤ b) →
      ∃ msg, decodeVarint buf offset = .error (.decodeErr msg)) ∧
    (∀ len no, decodeVarint buf offset = .ok (len, no) → no + len > buf.length →
      ∃ msg, skipField buf offset WIRE_TYPE_LENGTH_DELIMITED
        = .error (.decodeErr msg)) := by
  constructor
  · intro hcont
    exact decodeVarintLoop_allCont 6 buf offset 0 0 0 (by norm_num) (by norm_num)
      (fun i b hi hb => hcont i b (by omega) hb)
  · intro len no hdv hover
    refine ⟨"Length-delimited field exceeds buffer", ?_⟩
    unfold skipField
    rw [if_neg (by decide : ¬ WIRE_TYPE_LENGTH_DELIMITED = WIRE_TYPE_VARINT),
      if_neg (by decide : ¬ WIRE_TYPE_LENGTH_DELIMITED = WIRE_TYPE_64BIT),
      if_pos rfl, hdv]
    simp [hover]

/-- Witness for C8: five continuation bytes force a DecodeError, and a
length field of 3 on a one-byte buffer forces a DecodeError. -/
theorem c8_varint_bounds_witness :
    (∃ msg, decodeVarint [128, 128, 128, 128, 128, 0] 0 = .error (.decodeErr msg)) ∧
    (∃ msg, skipField [3] 0 WIRE_TYPE_LENGTH_DELIMITED = .error (.decodeErr msg)) :=
  ⟨(c8_varint_bounds [128, 128, 128, 128, 128, 0] 0).1 (by
      intro i b hi hb
      interval_cases i <;> simp [byteAt] at hb <;> omega),
    (c8_varint_bounds [3] 0).2 3 1 (by rfl) (by norm_num)⟩

/- ===== Claim C10 ===== -/

/-- A concrete entry sub-message carrying only a key field (field 1) and no
value field: outer tag 10, length 3, inner tag 10, length 1, byte 97. -/
def keyOnlyEntryBuf : List Nat := [10, 3, 10, 1, 97]

/-- C10: `decodeKeystoreData` is total and memory-safe over arbitrary bytes:
it either returns a mapping or raises a DecodeError — never the model's
out-of-bounds marker (every buffer access is guarded) nor the fuel marker
(every loop terminates within its fuel); and an entry sub-message lacking a
key or value field contributes no entry rather than failing, as the
key-only buffer shows. -/
theorem c10_decode_total_safe :
    (∀ buf, (∃ m, decodeKeystoreData buf = .ok m) ∨
      (∃ msg, decodeKeystoreData buf = .error (.decodeErr msg))) ∧
    decodeKeystoreData keyOnlyEntryBuf = .ok [] := by
  constructor
  · intro buf
    exact decodeLoop_total (buf.length + 1) buf 0 [] (by omega)
  · rfl

/- ===== Heap lemmas ===== -/

theorem heapGet_heapSet_self (h : Heap) (r : Nat) (o : JsObj) (hr : r < h.length) :
    heapGet (heapSet h r o) r = o := by
  unfold heapGet heapSet
  rw [List.getD, List.get?_eq_getElem?, List.getElem?_set_self (by simpa using hr)]
  rfl

theorem heapGet_heapSet_ne (h : Heap) (r r2 : Nat) (o : JsObj) (hne : r ≠ r2) :
    heapGet (heapSet h r o) r2 = heapGet h r2 := by
  unfold heapGet heapSet
  rw [List.getD, List.getD, List.get?_eq_getElem?, List.get?_eq_getElem?,
    List.getElem?_set_ne hne]

theorem heapGet_heapSet_empty (h : Heap) (r : Nat) :
    heapGet (heapSet h r []) r = [] := by
  rcases Nat.lt_or_ge r h.length with hlt | hge
  · exact heapGet_heapSet_self h r [] hlt
  · unfold heapGet heapSet
    rw [List.getD, List.get?_eq_getElem?, List.getElem?_eq_none (by simpa using hge)]
    rfl

/- ===== Claim C4 ===== -/

/-- C4: `decrypt` validates the decoded salt (16 bytes), iv (12 bytes) and
tag (16 bytes) and fails with a FormatError on any mismatch, before any key
derivation or decryption is attempted: on bad lengths the result is a
FormatError and is identical for every choice of the scrypt and AES-GCM
oracles, so neither can have been consulted. -/
theorem c4_decrypt_validates_lengths (orc1 orc2 : Oracles)
    (payload : EncryptedPayload) (password : Str)
    (h : (hexDecode payload.salt).length ≠ SALT_LEN ∨
      (hexDecode payload.iv).length ≠ IV_LEN ∨
      (hexDecode payload.tag).length ≠ TAG_LEN) :
    (∃ msg, decrypt orc1 payload password = .error (.formatErr msg)) ∧
    decrypt orc1 payload password = decrypt orc2 payload password := by
  simp only [decrypt]
  by_cases hs : (hexDecode payload.salt).length ≠ SALT_LEN
  · exact ⟨⟨"Invalid salt length", by rw [if_pos hs]⟩, by simp [hs]⟩
  · by_cases hi : (hexDecode payload.iv).length ≠ IV_LEN
    · exact ⟨⟨"Invalid iv length", by rw [if_neg hs, if_pos hi]⟩, by simp [hs, hi]⟩
    · have ht : (hexDecode payload.tag).length ≠ TAG_LEN := by tauto
      exact ⟨⟨"Invalid tag length", by rw [if_neg hs, if_neg hi, if_pos ht]⟩,
        by simp [hs, hi, ht]⟩

/-- A trivial concrete oracle assignment used in witnesses. -/
def oraclesA : Oracles :=
  ⟨fun _ => none, fun _ => [], fun _ _ => [], fun _ _ _ _ => none⟩

/-- A second, observably different oracle assignment used in witnesses. -/
def oraclesB : Oracles :=
  ⟨fun _ => none, fun _ => [], fun _ _ => [0], fun _ _ _ _ => some []⟩

/-- Witness for C4: a payload whose salt decodes to a single byte. -/
theorem c4_decrypt_validates_lengths_witness :
    (∃ msg, decrypt oraclesA ⟨1, [48, 48], [], [], []⟩ [] = .error (.formatErr msg)) ∧
    decrypt oraclesA ⟨1, [48, 48], [], [], []⟩ []
      = decrypt oraclesB ⟨1, [48, 48], [], [], []⟩ [] :=
  c4_decrypt_validates_lengths oraclesA oraclesB ⟨1, [48, 48], [], [], []⟩ []
    (Or.inl (by decide))

/- ===== Store shape lemmas ===== -/

theorem finishRead_shape (ks : Keystore) (h : Heap) (fs : FileState) (m : JsObj) :
    Keystore.finishRead ks h fs m
      = ⟨.ok (h.length + 1), { ks with dataRef := h.length, loaded := true },
          (h ++ [m]) ++ [m], fs⟩ := by
  unfold Keystore.finishRead alloc
  simp

/-- On an existing file, `read` either raises an error leaving the state
untouched, or runs the common `finishRead` tail on some decoded mapping. -/
theorem read_some_shape (orc : Oracles) (ks : Keystore) (h : Heap) (raw : List Nat) :
    (∃ e, Keystore.read orc ks h (some raw) = ⟨.error e, ks, h, some raw⟩) ∨
    (∃ m, Keystore.read orc ks h (some raw) = Keystore.finishRead ks h (some raw) m) := by
  unfold Keystore.read
  cases hp : orc.jsonParse raw with
  | none =>
    cases hd : decodeKeystoreData raw with
    | error e => exact .inl ⟨e, by simp [hp, hd]⟩
    | ok m => exact .inr ⟨m, by simp [hp, hd]⟩
  | some parsed =>
    by_cases henc : isEncryptedPayload parsed
    · cases hpw : ks.password with
      | none =>
        exact .inl ⟨.missingPasswordErr "Keystore is encrypted but no password provided",
          by simp [hp, henc, hpw]⟩
      | some pw =>
        cases hdec : decrypt orc (payloadOfJson parsed) pw with
        | error e => exact .inl ⟨e, by simp [hp, henc, hpw, hdec]⟩
        | ok plain =>
          cases hp2 : orc.jsonParse plain with
          | none =>
            cases hd2 : decodeKeystoreData (orc.b64decode plain) with
            | error e => exact .inl ⟨e, by simp [hp, henc, hpw, hdec, hp2, hd2]⟩
            | ok m => exact .inr ⟨m, by simp [hp, henc, hpw, hdec, hp2, hd2]⟩
          | some mj =>
            cases hd2 : decodeKeystoreData (orc.b64decode plain) with
            | error e =>
              cases mj with
              | obj fields =>
                exact .inr ⟨jsonFieldsToData fields, by simp [hp, henc, hpw, hdec, hp2]⟩
              | null => exact .inl ⟨e, by simp [hp, henc, hpw, hdec, hp2, hd2]⟩
              | bool b => exact .inl ⟨e, by simp [hp, henc, hpw, hdec, hp2, hd2]⟩
              | num n => exact .inl ⟨e, by simp [hp, henc, hpw, hdec, hp2, hd2]⟩
              | str s => exact .inl ⟨e, by simp [hp, henc, hpw, hdec, hp2, hd2]⟩
              | arr xs => exact .inl ⟨e, by simp [hp, henc, hpw, hdec, hp2, hd2]⟩
            | ok m =>
              cases mj with
              | obj fields =>
                exact .inr ⟨jsonFieldsToData fields, by simp [hp, henc, hpw, hdec, hp2]⟩
              | null => exact .inr ⟨m, by simp [hp, henc, hpw, hdec, hp2, hd2]⟩
              | bool b => exact .inr ⟨m, by simp [hp, henc, hpw, hdec, hp2, hd2]⟩
              | num n => exact .inr ⟨m, by simp [hp, henc, hpw, hdec, hp2, hd2]⟩
              | str s => exact .inr ⟨m, by simp [hp, henc, hpw, hdec, hp2, hd2]⟩
              | arr xs => exact .inr ⟨m, by simp [hp, henc, hpw, hdec, hp2, hd2]⟩
    · cases hd : decodeKeystoreData raw with
      | error e =>
        cases parsed with
        | obj fields => exact .inr ⟨jsonFieldsToData fields, by simp [hp, henc]⟩
        | null => exact .inl ⟨e, by simp [hp, henc, hd]⟩
        | bool b => exact .inl ⟨e, by simp [hp, henc, hd]⟩
        | num n => exact .inl ⟨e, by simp [hp, henc, hd]⟩
        | str s => exact .inl ⟨e, by simp [hp, henc, hd]⟩
        | arr xs => exact .inl ⟨e, by simp [hp, henc, hd]⟩
      | ok m =>
        cases parsed with
        | obj fields => exact .inr ⟨jsonFieldsToData fields, by simp [hp, henc]⟩
        | null => exact .inr ⟨m, by simp [hp, henc, hd]⟩
        | bool b => exact .inr ⟨m, by simp [hp, henc, hd]⟩
        | num n => exact .inr ⟨m, by simp [hp, henc, hd]⟩
        | str s => exact .inr ⟨m, by simp [hp, henc, hd]⟩
        | arr xs => exact .inr ⟨m, by simp [hp, henc, hd]⟩

theorem read_wf (orc : Oracles) (ks : Keystore) (h : Heap) (fs : FileState)
    (hwf : ks.dataRef < h.length) :
    (Keystore.read orc ks h fs).store.dataRef < (Keystore.read orc ks h fs).heap.length := by
  cases fs with
  | none =>
    simp only [Keystore.read, heapSet]
    simpa using hwf
  | some raw =>
    rcases read_some_shape orc ks h raw with ⟨e, he⟩ | ⟨m, hm⟩
    · rw [he]
      exact hwf
    · rw [hm, finishRead_shape]
      simp only [List.length_append, List.length_cons, List.length_nil]
      omega

theorem ensureLoaded_loaded (orc : Oracles) (ks : Keystore) (h : Heap) (fs : FileState)
    (hl : ks.loaded = true) :
    Keystore.ensureLoaded orc ks h fs = ⟨.ok (), ks, h, fs⟩ := by
  simp [Keystore.ensureLoaded, hl]

theorem ensureLoaded_wf (orc : Oracles) (ks : Keystore) (h : Heap) (fs : FileState)
    (hwf : ks.dataRef < h.length) :
    (Keystore.ensureLoaded orc ks h fs).store.dataRef
      < (Keystore.ensureLoaded orc ks h fs).heap.length := by
  unfold Keystore.ensureLoaded
  by_cases hl : ks.loaded
  · rw [if_pos hl]
    exact hwf
  · rw [if_neg hl]
    exact read_wf orc ks h fs hwf

/- ===== Claim C6 ===== -/

/-- C6: when the file does not exist, `read` does not raise an error: it
sets the in-memory data object to the empty mapping, marks the store
LOADED, leaves the file state untouched and returns (a reference to) the
empty mapping. -/
theorem c6_read_missing_file (orc : Oracles) (ks : Keystore) (h : Heap) :
    Keystore.read orc ks h none
      = ⟨.ok ks.dataRef, { ks with loaded := true }, heapSet h ks.dataRef [], none⟩ ∧
    heapGet (heapSet h ks.dataRef []) ks.dataRef = [] :=
  ⟨rfl, heapGet_heapSet_empty h ks.dataRef⟩

/- ===== Claim C5 ===== -/

/-- C5: when the file contents parse as JSON satisfying
`isEncryptedPayload` and no password is configured, `read` fails with a
MissingPasswordError, and the store state, heap (hence the in-memory map)
and file are unchanged by the failed read. -/
theorem c5_missing_password (orc : Oracles) (ks : Keystore) (h : Heap)
    (raw : List Nat) (parsed : Json)
    (hparse : orc.jsonParse raw = some parsed)
    (henc : isEncryptedPayload parsed = true)
    (hpw : ks.password = none) :
    ∃ msg, Keystore.read orc ks h (some raw)
      = ⟨.error (.missingPasswordErr msg), ks, h, some raw⟩ := by
  refine ⟨"Keystore is encrypted but no password provided", ?_⟩
  unfold Keystore.read
  simp [hparse, henc, hpw]

/-- A parsed JSON object satisfying `isEncryptedPayload`, and an oracle
whose `JSON.parse` always yields it; used in witnesses. -/
def encJson : Json :=
  .obj [(verKey, .num 1), (saltKey, .str []), (ivKey, .str []),
    (tagKey, .str []), (dataKey, .str [])]

/-- Oracle whose JSON parse always returns `encJson`. -/
def oraclesEnc : Oracles :=
  ⟨fun _ => some encJson, fun _ => [], fun _ _ => [], fun _ _ _ _ => none⟩

/-- Witness for C5 at a concrete store, heap and file. -/
theorem c5_missing_password_witness :
    ∃ msg, Keystore.read oraclesEnc ⟨0, false, none⟩ [[]] (some [])
      = ⟨.error (.missingPasswordErr msg), ⟨0, false, none⟩, [[]], some []⟩ :=
  c5_missing_password oraclesEnc ⟨0, false, none⟩ [[]] [] encJson rfl (by decide) rfl

/- ===== Claim C9 ===== -/

/-- C9: on a loaded store (with a live data reference), `set k v` succeeds
without touching the file or the store record, a subsequent `get k` returns
`v`, and `get k2` for any other key returns what it returned before. -/
theorem c9_set_updates_only_key (orc : Oracles) (ks : Keystore) (h : Heap)
    (fs : FileState) (key value : Str)
    (hload : ks.loaded = true) (hwf : ks.dataRef < h.length) :
    (Keystore.set orc ks h fs key value).res = .ok () ∧
    (Keystore.set orc ks h fs key value).store = ks ∧
    (Keystore.set orc ks h fs key value).fs = fs ∧
    (Keystore.get orc (Keystore.set orc ks h fs key value).store
        (Keystore.set orc ks h fs key value).heap
        (Keystore.set orc ks h fs key value).fs key).res = .ok (some value) ∧
    (∀ k2, k2 ≠ key →
      (Keystore.get orc (Keystore.set orc ks h fs key value).store
          (Keystore.set orc ks h fs key value).heap
          (Keystore.set orc ks h fs key value).fs k2).res
        = (Keystore.get orc ks h fs k2).res) := by
  have hset : Keystore.set orc ks h fs key value
      = ⟨.ok (), ks, heapSet h ks.dataRef
          (jsSet (heapGet h ks.dataRef) key value), fs⟩ := by
    unfold Keystore.set
    rw [ensureLoaded_loaded orc ks h fs hload]
  have hget : ∀ k2, (Keystore.get orc ks
      (heapSet h ks.dataRef (jsSet (heapGet h ks.dataRef) key value)) fs k2).res
      = .ok (jsGet (jsSet (heapGet h ks.dataRef) key value) k2) := by
    intro k2
    unfold Keystore.get
    rw [ensureLoaded_loaded orc ks _ fs hload]
    simp only []
    rw [heapGet_heapSet_self h ks.dataRef _ hwf]
  refine ⟨by rw [hset], by rw [hset], by rw [hset], ?_, ?_⟩
  · rw [hset]
    simp only []
    rw [hget key, jsGet_jsSet]
    simp
  · intro k2 hne
    rw [hset]
    simp only []
    rw [hget k2, jsGet_jsSet, if_neg hne]
    unfold Keystore.get
    rw [ensureLoaded_loaded orc ks h fs hload]

/-- Witness for C9 at a concrete loaded store. -/
theorem c9_set_updates_only_key_witness :
    (Keystore.set oraclesA ⟨0, true, none⟩ [[]] none [107] [118]).res = .ok () ∧
    (Keystore.set oraclesA ⟨0, true, none⟩ [[]] none [107] [118]).store
      = ⟨0, true, none⟩ ∧
    (Keystore.set oraclesA ⟨0, true, none⟩ [[]] none [107] [118]).fs = none ∧
    (Keystore.get oraclesA
        (Keystore.set oraclesA ⟨0, true, none⟩ [[]] none [107] [118]).store
        (Keystore.set oraclesA ⟨0, true, none⟩ [[]] none [107] [118]).heap
        (Keystore.set oraclesA ⟨0, true, none⟩ [[]] none [107] [118]).fs [107]).res
      = .ok (some [118]) ∧
    (∀ k2, k2 ≠ [107] →
      (Keystore.get oraclesA
          (Keystore.set oraclesA ⟨0, true, none⟩ [[]] none [107] [118]).store
          (Keystore.set oraclesA ⟨0, true, none⟩ [[]] none [107] [118]).heap
          (Keystore.set oraclesA ⟨0, true, none⟩ [[]] none [107] [118]).fs k2).res
        = (Keystore.get oraclesA ⟨0, true, none⟩ [[]] none k2).res) :=
  c9_set_updates_only_key oraclesA ⟨0, true, none⟩ [[]] none [107] [118] rfl
    (by norm_num)

/- ===== Claim C3 ===== -/

/-- C3 counterexample: `read` on a nonexistent file returns the store's
internal data object itself, not a copy: the returned reference equals the
store's `dataRef`, and mutating the returned object changes the store's
in-memory map (from the empty map to the mutated contents). -/
theorem c3_read_missing_aliases :
    (Keystore.read oraclesA ⟨0, false, none⟩ [[([107], [118])]] none).res = .ok 0 ∧
    (Keystore.read oraclesA ⟨0, false, none⟩ [[([107], [118])]] none).store.dataRef = 0 ∧
    heapGet (Keystore.read oraclesA ⟨0, false, none⟩ [[([107], [118])]] none).heap 0
      = [] ∧
    heapGet
      (heapSet (Keystore.read oraclesA ⟨0, false, none⟩ [[([107], [118])]] none).heap
        0 [([107], [109])])
      (Keystore.read oraclesA ⟨0, false, none⟩ [[([107], [118])]] none).store.dataRef
      = [([107], [109])] :=
  ⟨rfl, rfl, rfl, rfl⟩

/-- C3 (amended): `getAll` always returns a freshly allocated copy, and
`read` on an existing file returns a freshly allocated copy: the returned
reference differs from the store's internal `dataRef`, so mutating the
returned object never changes the internal map. (`read` on a nonexistent
file, by contrast, returns the internal object itself.) -/
theorem c3_defensive_copies (orc : Oracles) (ks : Keystore) (h : Heap) (fs : FileState)
    (hwf : ks.dataRef < h.length) :
    (∀ r ks2 h2 fs2, Keystore.getAll orc ks h fs = ⟨.ok r, ks2, h2, fs2⟩ →
      r ≠ ks2.dataRef ∧
        ∀ o, heapGet (heapSet h2 r o) ks2.dataRef = heapGet h2 ks2.dataRef) ∧
    (∀ raw r ks2 h2 fs2, Keystore.read orc ks h (some raw) = ⟨.ok r, ks2, h2, fs2⟩ →
      r ≠ ks2.dataRef ∧
        ∀ o, heapGet (heapSet h2 r o) ks2.dataRef = heapGet h2 ks2.dataRef) := by
  have hshape : Keystore.getAll orc ks h fs
      = match (Keystore.ensureLoaded orc ks h fs).res with
        | .error e => ⟨.error e, (Keystore.ensureLoaded orc ks h fs).store,
            (Keystore.ensureLoaded orc ks h fs).heap,
            (Keystore.ensureLoaded orc ks h fs).fs⟩
        | .ok _ => ⟨.ok (Keystore.ensureLoaded orc ks h fs).heap.length,
            (Keystore.ensureLoaded orc ks h fs).store,
            (Keystore.ensureLoaded orc ks h fs).heap
              ++ [heapGet (Keystore.ensureLoaded orc ks h fs).heap
                  (Keystore.ensureLoaded orc ks h fs).store.dataRef],
            (Keystore.ensureLoaded orc ks h fs).fs⟩ := rfl
  constructor
  · intro r ks2 h2 fs2 hga
    have hwf2 := ensureLoaded_wf orc ks h fs hwf
    rw [hshape] at hga
    cases hres : (Keystore.ensureLoaded orc ks h fs).res with
    | error e =>
      rw [hres] at hga
      simp at hga
    | ok u =>
      rw [hres] at hga
      simp only [Outcome.mk.injEq, Except.ok.injEq] at hga
      obtain ⟨hr, hks, hh, hf⟩ := hga
      constructor
      · rw [← hr, ← hks]
        omega
      · intro o2
        rw [← hr, ← hks, ← hh]
        exact heapGet_heapSet_ne _ _ _ o2 (by omega)
  · intro raw r ks2 h2 fs2 hrd
    rcases read_some_shape orc ks h raw with ⟨e, he⟩ | ⟨m, hm⟩
    · rw [he] at hrd
      simp at hrd
    · rw [hm, finishRead_shape] at hrd
      simp only [Outcome.mk.injEq, Except.ok.injEq] at hrd
      obtain ⟨hr, hks, hh, hf⟩ := hrd
      constructor
      · rw [← hr, ← hks]
        show ¬ h.length + 1 = h.length
        omega
      · intro o2
        rw [← hr, ← hks, ← hh]
        exact heapGet_heapSet_ne _ _ _ o2 (by show ¬ h.length + 1 = h.length; omega)

/-- Witness for the amended C3: a concrete loaded store whose `getAll`
snapshot reference is distinct from the internal object. -/
theorem c3_defensive_copies_witness :
    (1 : Nat) ≠ (0 : Nat) ∧
      ∀ o, heapGet (heapSet [[], []] 1 o) 0 = heapGet [[], []] 0 :=
  (c3_defensive_copies oraclesA ⟨0, true, none⟩ [[]] none (by norm_num)).1
    1 ⟨0, true, none⟩ [[], []] none (by rfl)
